import Mathlib

/-!
Verification of core properties of the passt/pasta user-space network
translator against a shallow embedding of its C sources (tcp.c, flow.c,
udp.c, util.c, conf.c).  Each section embeds the data model and operations
of one part of the code as executable Lean definitions and proves the
corresponding specification claims about them.
-/

namespace Passt

/-! ## TCP sequence-number comparison macros (tcp.c)

`MAX_WINDOW` and the `SEQ_*` macros, from tcp.c:

    #define MAX_WS      8
    #define MAX_WINDOW  (1 << (16 + (MAX_WS)))
    #define SEQ_LE(a, b) ((b) - (a) < MAX_WINDOW)
    #define SEQ_LT(a, b) ((b) - (a) - 1 < MAX_WINDOW)
    #define SEQ_GE(a, b) ((a) - (b) < MAX_WINDOW)
    #define SEQ_GT(a, b) ((a) - (b) - 1 < MAX_WINDOW)

All operands are `uint32_t`, so subtraction is modulo `2^32`.
-/

/-- `MAX_WINDOW` from tcp.c: `1 << (16 + MAX_WS)` with `MAX_WS = 8`. -/
def MAX_WINDOW : Nat := 1 <<< (16 + 8)

/-- Unsigned 32-bit subtraction `a - b`, as computed on `uint32_t` operands. -/
def sub32 (a b : Nat) : Nat := (a % 2 ^ 32 + (2 ^ 32 - b % 2 ^ 32)) % 2 ^ 32

/-- `SEQ_LE(a, b)` from tcp.c. -/
def SEQ_LE (a b : Nat) : Bool := sub32 b a < MAX_WINDOW

/-- `SEQ_LT(a, b)` from tcp.c. -/
def SEQ_LT (a b : Nat) : Bool := sub32 (sub32 b a) 1 < MAX_WINDOW

/-- `SEQ_GE(a, b)` from tcp.c. -/
def SEQ_GE (a b : Nat) : Bool := sub32 a b < MAX_WINDOW

/-- `SEQ_GT(a, b)` from tcp.c. -/
def SEQ_GT (a b : Nat) : Bool := sub32 (sub32 a b) 1 < MAX_WINDOW

theorem sub32_lt (a b : Nat) : sub32 a b < 2 ^ 32 :=
  Nat.mod_lt _ (by norm_num)

theorem sub32_of_le (a b : Nat) (ha : a < 2 ^ 32) (hle : b ≤ a) :
    sub32 a b = a - b := by
  unfold sub32
  rw [Nat.mod_eq_of_lt ha, Nat.mod_eq_of_lt (lt_of_le_of_lt hle ha)]
  have h : a + (2 ^ 32 - b) = (a - b) + 2 ^ 32 := by omega
  rw [h, Nat.add_mod_right, Nat.mod_eq_of_lt (by omega)]

theorem sub32_of_gt (a b : Nat) (hb : b < 2 ^ 32) (hgt : a < b) :
    sub32 a b = a + 2 ^ 32 - b := by
  unfold sub32
  rw [Nat.mod_eq_of_lt (lt_trans hgt hb), Nat.mod_eq_of_lt hb]
  have h : a + (2 ^ 32 - b) = a + 2 ^ 32 - b := by omega
  rw [h, Nat.mod_eq_of_lt (by omega)]

/-- C3 counterexample: the `SEQ_*` macros do *not* agree with exact integer
comparison on all pairs differing by less than `2^31`: at `a = 0`,
`b = 2^24`, the two differ by `2^24 < 2^31` and `a ≤ b`, yet
`SEQ_LE a b = false`, because `MAX_WINDOW` is `2^24`, not `2^31`. -/
theorem seq_cmp_not_valid_over_half_range :
    ¬ (∀ a b : Nat, a < 2 ^ 32 → b < 2 ^ 32 →
        (a ≤ b ∧ b - a < 2 ^ 31) ∨ (b ≤ a ∧ a - b < 2 ^ 31) →
        (SEQ_LE a b = decide (a ≤ b) ∧ SEQ_LT a b = decide (a < b) ∧
         SEQ_GE a b = decide (b ≤ a) ∧ SEQ_GT a b = decide (b < a))) := by
  intro h
  have h0 := (h 0 (2 ^ 24) (by norm_num) (by norm_num)
      (Or.inl ⟨by norm_num, by norm_num⟩)).1
  revert h0
  decide

/-- C3 (amended): the wrap-around comparisons `SEQ_LT/LE/GE/GT` agree with
exact integer comparison whenever the two 32-bit sequence numbers differ by
less than `MAX_WINDOW = 2^24` (not `2^31`), so they are valid over the
±`2^24` window used by the TCP engine. -/
theorem seq_cmp_valid_within_max_window (a b : Nat)
    (ha : a < 2 ^ 32) (hb : b < 2 ^ 32)
    (hd : (a ≤ b ∧ b - a < MAX_WINDOW) ∨ (b ≤ a ∧ a - b < MAX_WINDOW)) :
    SEQ_LE a b = decide (a ≤ b) ∧ SEQ_LT a b = decide (a < b) ∧
    SEQ_GE a b = decide (b ≤ a) ∧ SEQ_GT a b = decide (b < a) := by
  have hMW : MAX_WINDOW = 16777216 := rfl
  rw [hMW] at hd
  refine ⟨?_, ?_, ?_, ?_⟩
  · simp only [SEQ_LE, hMW]
    rw [decide_eq_decide]
    rcases hd with ⟨hab, hw⟩ | ⟨hba, hw⟩
    · rw [sub32_of_le b a hb hab]; omega
    · rcases Nat.eq_or_lt_of_le hba with heq | hlt
      · subst heq; rw [sub32_of_le b b hb le_rfl]; omega
      · rw [sub32_of_gt b a ha hlt]; omega
  · simp only [SEQ_LT, hMW]
    rw [decide_eq_decide]
    rcases hd with ⟨hab, hw⟩ | ⟨hba, hw⟩
    · rw [sub32_of_le b a hb hab]
      rcases Nat.eq_or_lt_of_le hab with heq | hlt
      · subst heq
        rw [Nat.sub_self, sub32_of_gt 0 1 (by norm_num) (by norm_num)]
        omega
      · rw [sub32_of_le (b - a) 1 (by omega) (by omega)]; omega
    · rcases Nat.eq_or_lt_of_le hba with heq | hlt
      · subst heq
        rw [sub32_of_le b b hb le_rfl, Nat.sub_self,
          sub32_of_gt 0 1 (by norm_num) (by norm_num)]
        omega
      · rw [sub32_of_gt b a ha hlt,
          sub32_of_le (b + 2 ^ 32 - a) 1 (by omega) (by omega)]
        omega
  · simp only [SEQ_GE, hMW]
    rw [decide_eq_decide]
    rcases hd with ⟨hab, hw⟩ | ⟨hba, hw⟩
    · rcases Nat.eq_or_lt_of_le hab with heq | hlt
      · subst heq; rw [sub32_of_le a a ha le_rfl]; omega
      · rw [sub32_of_gt a b hb hlt]; omega
    · rw [sub32_of_le a b ha hba]; omega
  · simp only [SEQ_GT, hMW]
    rw [decide_eq_decide]
    rcases hd with ⟨hab, hw⟩ | ⟨hba, hw⟩
    · rcases Nat.eq_or_lt_of_le hab with heq | hlt
      · subst heq
        rw [sub32_of_le a a ha le_rfl, Nat.sub_self,
          sub32_of_gt 0 1 (by norm_num) (by norm_num)]
        omega
      · rw [sub32_of_gt a b hb hlt,
          sub32_of_le (a + 2 ^ 32 - b) 1 (by omega) (by omega)]
        omega
    · rw [sub32_of_le a b ha hba]
      rcases Nat.eq_or_lt_of_le hba with heq | hlt
      · subst heq
        rw [Nat.sub_self, sub32_of_gt 0 1 (by norm_num) (by norm_num)]
        omega
      · rw [sub32_of_le (a - b) 1 (by omega) (by omega)]; omega

/-- Witness for `seq_cmp_valid_within_max_window` at the concrete pair
`a = 100`, `b = 105`, which differ by `5 < MAX_WINDOW`. -/
theorem seq_cmp_valid_within_max_window_witness :
    SEQ_LE 100 105 = decide ((100 : Nat) ≤ 105) ∧
    SEQ_LT 100 105 = decide ((100 : Nat) < 105) ∧
    SEQ_GE 100 105 = decide ((105 : Nat) ≤ 100) ∧
    SEQ_GT 100 105 = decide ((105 : Nat) < 100) :=
  seq_cmp_valid_within_max_window 100 105 (by norm_num) (by norm_num)
    (Or.inl ⟨by norm_num, by decide⟩)

/-! ## UDP reverse port map (udp.c)

`udp_invert_portmap()`:

    for (i = 0; i < ARRAY_SIZE(fwd->f.delta); i++) {
        in_port_t delta = fwd->f.delta[i];
        in_port_t rport = i + delta;

        if (delta)
            fwd->rdelta[rport] = NUM_PORTS - delta;
    }

`delta` and `rport` are `in_port_t` (16-bit), so `i + delta` wraps modulo
`NUM_PORTS = 2^16`; `rdelta` is a static array, all zero initially.
-/

/-- Size of the port space: `NUM_PORTS = 2^16`. -/
def NUM_PORTS : Nat := 65536

/-- One iteration of the `udp_invert_portmap()` loop: update the reverse
map `rd` from the forward delta of port `i`. -/
def invertStep (delta : Nat → Nat) (rd : Nat → Nat) (i : Nat) : Nat → Nat :=
  let d := delta i
  let rport := (i + d) % NUM_PORTS
  if d = 0 then rd else fun j => if j = rport then NUM_PORTS - d else rd j

/-- `udp_invert_portmap()` (udp.c): compute the reverse port translations
from the forward deltas, starting from the all-zero `rdelta` array. -/
def udp_invert_portmap (delta : Nat → Nat) : Nat → Nat :=
  (List.range NUM_PORTS).foldl (invertStep delta) (fun _ => 0)

theorem invertStep_apply (delta rd : Nat → Nat) (i j : Nat) :
    invertStep delta rd i j =
      if delta i ≠ 0 ∧ j = (i + delta i) % NUM_PORTS
      then NUM_PORTS - delta i else rd j := by
  simp only [invertStep]
  by_cases hd : delta i = 0
  · rw [if_pos hd, if_neg (by simp [hd])]
  · rw [if_neg hd]
    by_cases hj : j = (i + delta i) % NUM_PORTS
    · simp only [if_pos hj, if_pos (And.intro hd hj)]
    · simp only [if_neg hj]
      rw [if_neg (by tauto)]

theorem foldl_invertStep_stable (delta : Nat → Nat) (r v : Nat) :
    ∀ (L : List Nat) (rd : Nat → Nat), rd r = v →
      (∀ q ∈ L, delta q ≠ 0 → (q + delta q) % NUM_PORTS = r →
        NUM_PORTS - delta q = v) →
      L.foldl (invertStep delta) rd r = v
  | [], _, h, _ => h
  | q :: L, rd, h, hw => by
    rw [List.foldl_cons]
    apply foldl_invertStep_stable delta r v L
    · rw [invertStep_apply]
      split
      · next hcond => exact hw q (List.mem_cons_self q L) hcond.1 hcond.2.symm
      · exact h
    · intro q' hq' hd' he'
      exact hw q' (List.mem_cons_of_mem q hq') hd' he'

theorem foldl_invertStep_writer (delta : Nat → Nat) (p : Nat)
    (hdp : delta p ≠ 0) :
    ∀ (L : List Nat) (rd : Nat → Nat), p ∈ L →
      (∀ q ∈ L, delta q ≠ 0 →
        (q + delta q) % NUM_PORTS = (p + delta p) % NUM_PORTS →
        delta q = delta p) →
      L.foldl (invertStep delta) rd ((p + delta p) % NUM_PORTS) =
        NUM_PORTS - delta p
  | [], _, hmem, _ => absurd hmem (List.not_mem_nil p)
  | q :: L, rd, hmem, hw => by
    rw [List.foldl_cons]
    by_cases hpL : p ∈ L
    · exact foldl_invertStep_writer delta p hdp L _ hpL
        (fun q' hq' => hw q' (List.mem_cons_of_mem q hq'))
    · have hqp : q = p := by
        rcases List.mem_cons.mp hmem with h | h
        · exact h.symm
        · exact absurd h hpL
      subst hqp
      apply foldl_invertStep_stable
      · rw [invertStep_apply, if_pos ⟨hdp, rfl⟩]
      · intro q' hq' hd' he'
        rw [hw q' (List.mem_cons_of_mem q hq') hd' he']

/-- The colliding forward map used to refute C7 as stated: ports 1 and 2
are both remapped onto port 3 (`delta[1] = 2`, `delta[2] = 1`). -/
def delta0 : Nat → Nat := fun i => if i = 1 then 2 else if i = 2 then 1 else 0

theorem udp_invert_portmap_delta0_at_3 : udp_invert_portmap delta0 3 = 65535 := by
  unfold udp_invert_portmap
  have hsplit : List.range NUM_PORTS =
      List.range 3 ++ (List.range 65533).map (3 + ·) := by
    rw [show NUM_PORTS = 3 + 65533 from rfl, List.range_add]
  rw [hsplit, List.foldl_append]
  apply foldl_invertStep_stable
  · show (List.range 3).foldl (invertStep delta0) (fun _ => 0) 3 = 65535
    decide
  · intro q hq hdq _
    exfalso
    rcases List.mem_map.mp hq with ⟨k, _, rfl⟩
    apply hdq
    unfold delta0
    rw [if_neg (by omega), if_neg (by omega)]

/-- C7 counterexample: the involution law `rdelta[p + delta[p]] =
(65536 - delta[p]) mod 65536` does not hold for every port of every
forward map: when two forwarded ports collide on the same target
(`delta[1] = 2`, `delta[2] = 1`, both landing on port 3), the later write
wins and the law fails at `p = 1`. -/
theorem udp_invert_portmap_not_unconditional :
    ¬ (∀ (delta : Nat → Nat), (∀ i, delta i < NUM_PORTS) →
        ∀ p, p < NUM_PORTS →
          udp_invert_portmap delta ((p + delta p) % NUM_PORTS) =
            (NUM_PORTS - delta p) % NUM_PORTS) := by
  intro h
  have hb : ∀ i, delta0 i < NUM_PORTS := by
    intro i
    unfold delta0 NUM_PORTS
    split
    · omega
    · split <;> omega
  have h1 := h delta0 hb 1 (by norm_num [NUM_PORTS])
  rw [show (1 + delta0 1) % NUM_PORTS = 3 from rfl,
    udp_invert_portmap_delta0_at_3,
    show (NUM_PORTS - delta0 1) % NUM_PORTS = 65534 from rfl] at h1
  exact absurd h1 (by norm_num)

/-- C7 (amended): for every port `p`, provided no other port with a
non-zero delta is remapped onto the same target port (which holds whenever
the forward remapping is injective), `udp_invert_portmap` computes
`rdelta[p + delta[p]] = (65536 - delta[p]) mod 65536`, making the port
mapping an involution. -/
theorem udp_invert_portmap_inverts (delta : Nat → Nat) (p : Nat)
    (hlt : ∀ i, delta i < NUM_PORTS) (hp : p < NUM_PORTS)
    (huniq : ∀ q, q < NUM_PORTS → delta q ≠ 0 →
      (q + delta q) % NUM_PORTS = (p + delta p) % NUM_PORTS → q = p) :
    udp_invert_portmap delta ((p + delta p) % NUM_PORTS) =
      (NUM_PORTS - delta p) % NUM_PORTS := by
  have hN : NUM_PORTS = 65536 := rfl
  unfold udp_invert_portmap
  by_cases hdp : delta p = 0
  · have hrp : (p + delta p) % NUM_PORTS = p := by
      rw [hdp, Nat.add_zero, Nat.mod_eq_of_lt hp]
    rw [hrp, hdp, Nat.sub_zero, Nat.mod_self]
    apply foldl_invertStep_stable _ _ _ _ _ rfl
    intro q hq hdq hw
    have hqp : q = p := huniq q (List.mem_range.mp hq) hdq (by rw [hrp]; exact hw)
    exact absurd (hqp ▸ hdq) (by simp [hdp])
  · rw [Nat.mod_eq_of_lt (by omega : NUM_PORTS - delta p < NUM_PORTS)]
    apply foldl_invertStep_writer delta p hdp _ _ (List.mem_range.mpr hp)
    intro q hq hdq he
    rw [huniq q (List.mem_range.mp hq) hdq he]

/-- Witness for `udp_invert_portmap_inverts`: a single port 80 remapped by
delta 8000 to port 8080; the reverse map takes 8080 back to 80. -/
theorem udp_invert_portmap_inverts_witness :
    udp_invert_portmap (fun i => if i = 80 then 8000 else 0)
        ((80 + (fun i : Nat => if i = 80 then 8000 else 0) 80) % NUM_PORTS) =
      (NUM_PORTS - (fun i : Nat => if i = 80 then 8000 else 0) 80) %
        NUM_PORTS := by
  apply udp_invert_portmap_inverts
  · intro i
    dsimp only
    split <;> norm_num [NUM_PORTS]
  · norm_num [NUM_PORTS]
  · intro q _ hdq _
    dsimp only at hdq ⊢
    by_contra hne
    exact hdq (if_neg hne)

/-! ## UDP ephemeral-binding expiry (udp.c)

`udp_timer_one()` checks one port of one activity class against
`UDP_CONN_TIMEOUT` and, when the binding has expired and holds an open
socket, closes the socket, removes it from epoll and clears the activity
bit. -/

/-- `UDP_CONN_TIMEOUT` (udp.c): 180 s. -/
def UDP_CONN_TIMEOUT : Int := 180

/-- The three activity classes scanned by the UDP timer
(`enum udp_act_type`). -/
inductive UdpActType where
  | tap
  | spliceInit
  | spliceNs
deriving DecidableEq

/-- Result of `udp_timer_one()` on one port's tracking entry: the new
socket value and flags, the new activity bit, and whether `close()` and
`epoll_ctl(EPOLL_CTL_DEL)` were performed. -/
structure UdpTimerResult where
  sock : Int
  flags : Nat
  actBit : Bool
  closed : Bool
  epollDeleted : Bool
deriving DecidableEq

/-- `udp_timer_one()` (udp.c): per-port timed-event handler.  `sock`,
`flags` and `ts` are the port's tracking entry (`flags` only exists for
the tap class), `now` is the current time in seconds and `actBit` the
port's activity bit. -/
def udp_timer_one (ty : UdpActType) (sock : Int) (flags : Nat) (ts now : Int)
    (actBit : Bool) : UdpTimerResult :=
  let sockpSet : Bool :=
    match ty with
    | .tap => decide (now - ts > UDP_CONN_TIMEOUT)
    | .spliceInit => decide (now - ts > UDP_CONN_TIMEOUT)
    | .spliceNs => decide (now - ts > UDP_CONN_TIMEOUT)
  let flags' : Nat :=
    match ty with
    | .tap => if now - ts > UDP_CONN_TIMEOUT then 0 else flags
    | _ => flags
  if sockpSet ∧ sock ≥ 0 then
    { sock := -1, flags := flags', actBit := false,
      closed := true, epollDeleted := true }
  else
    { sock := sock, flags := flags', actBit := actBit,
      closed := false, epollDeleted := false }

/-- C9: on a timer scan, a UDP binding (an entry holding an open socket)
whose last activity is more than 180 s in the past has its socket closed,
its epoll entry removed and its activity bit cleared, while a binding
active within the last 180 s is left untouched. -/
theorem udp_binding_expiry (ty : UdpActType) (sock : Int) (flags : Nat)
    (ts now : Int) (actBit : Bool) (hsock : 0 ≤ sock) :
    (now - ts > 180 →
      udp_timer_one ty sock flags ts now actBit =
        { sock := -1, flags := (if ty = .tap then 0 else flags),
          actBit := false, closed := true, epollDeleted := true }) ∧
    (now - ts ≤ 180 →
      udp_timer_one ty sock flags ts now actBit =
        { sock := sock, flags := flags, actBit := actBit,
          closed := false, epollDeleted := false }) := by
  constructor
  · intro hexp
    cases ty <;> simp [udp_timer_one, UDP_CONN_TIMEOUT, hexp, hsock]
  · intro hact
    have hnot : ¬ (now - ts > (180 : Int)) := by omega
    cases ty <;> simp [udp_timer_one, UDP_CONN_TIMEOUT, hnot]

/-- Witness for `udp_binding_expiry`: a tap-class binding with socket 7,
last active at t = 0, scanned at t = 200 (expired) and a splice-init
binding scanned at t = 100 (still active). -/
theorem udp_binding_expiry_witness :
    udp_timer_one .tap 7 5 0 200 true =
      { sock := -1, flags := 0, actBit := false,
        closed := true, epollDeleted := true } ∧
    udp_timer_one .spliceInit 7 5 0 100 true =
      { sock := 7, flags := 5, actBit := true,
        closed := false, epollDeleted := false } :=
  ⟨by
    have h := (udp_binding_expiry .tap 7 5 0 200 true (by norm_num)).1
      (by norm_num)
    simpa using h,
   by
    have h := (udp_binding_expiry .spliceInit 7 5 0 100 true (by norm_num)).2
      (by norm_num)
    simpa using h⟩

/-! ## TCP connection events, flags and epoll mask (tcp.c)

The connection event and flag bitmasks live in tcp_conn.h, which is not
among the given sources; they are modelled as records of booleans. -/

/-- Modelled from the spec: the TCP connection event set of tcp_conn.h
(`SOCK_ACCEPTED`, `TAP_SYN_RCVD`, `TAP_SYN_ACK_SENT`, `ESTABLISHED`,
`SOCK_FIN_RCVD`, `SOCK_FIN_SENT`, `TAP_FIN_RCVD`, `TAP_FIN_SENT`,
`TAP_FIN_ACKED`), one boolean per event bit; `events == CLOSED` means no
bit is set. -/
structure ConnEvents where
  sockAccepted : Bool := false
  tapSynRcvd : Bool := false
  tapSynAckSent : Bool := false
  established : Bool := false
  sockFinRcvd : Bool := false
  sockFinSent : Bool := false
  tapFinRcvd : Bool := false
  tapFinSent : Bool := false
  tapFinAcked : Bool := false
deriving DecidableEq

/-- `events == CLOSED`, i.e. no event bit set (`!events` in C). -/
def ConnEvents.isClosed (e : ConnEvents) : Bool :=
  !(e.sockAccepted || e.tapSynRcvd || e.tapSynAckSent || e.established ||
    e.sockFinRcvd || e.sockFinSent || e.tapFinRcvd || e.tapFinSent ||
    e.tapFinAcked)

/-- `events == TAP_SYN_RCVD`: exactly the `TAP_SYN_RCVD` bit set. -/
def ConnEvents.isTapSynRcvdOnly (e : ConnEvents) : Bool :=
  e.tapSynRcvd && !e.sockAccepted && !e.tapSynAckSent && !e.established &&
  !e.sockFinRcvd && !e.sockFinSent && !e.tapFinRcvd && !e.tapFinSent &&
  !e.tapFinAcked

/-- Modelled from the spec: the TCP connection flag set of tcp_conn.h
(`STALLED`, `LOCAL`, `ACTIVE_CLOSE`, `ACK_TO_TAP_DUE`,
`ACK_FROM_TAP_DUE`). -/
structure ConnFlags where
  stalled : Bool := false
  localConn : Bool := false
  activeClose : Bool := false
  ackToTapDue : Bool := false
  ackFromTapDue : Bool := false
deriving DecidableEq

/-- An epoll events mask restricted to the four bits combined by
`tcp_conn_epoll_events()` (`EPOLLIN`, `EPOLLOUT`, `EPOLLRDHUP`,
`EPOLLET`). -/
structure EpollMask where
  epollin : Bool := false
  epollout : Bool := false
  epollrdhup : Bool := false
  epollet : Bool := false
deriving DecidableEq

/-- `tcp_conn_epoll_events()` (tcp.c): epoll events mask for a given
connection state:

    if (!events) return 0;
    if (events & ESTABLISHED) {
        if (events & TAP_FIN_SENT) return EPOLLET;
        if (conn_flags & STALLED)
            return EPOLLIN | EPOLLOUT | EPOLLRDHUP | EPOLLET;
        return EPOLLIN | EPOLLRDHUP;
    }
    if (events == TAP_SYN_RCVD) return EPOLLOUT | EPOLLET | EPOLLRDHUP;
    return EPOLLRDHUP;
-/
def tcp_conn_epoll_events (events : ConnEvents) (connFlags : ConnFlags) :
    EpollMask :=
  if events.isClosed then {}
  else if events.established then
    if events.tapFinSent then { epollet := true }
    else if connFlags.stalled then
      { epollin := true, epollout := true, epollrdhup := true, epollet := true }
    else { epollin := true, epollrdhup := true }
  else if events.isTapSynRcvdOnly then
    { epollout := true, epollet := true, epollrdhup := true }
  else { epollrdhup := true }

/-- C8 counterexample: it is not true that every connection with `STALLED`
asserted gets a mask including `EPOLLIN|EPOLLOUT|EPOLLRDHUP|EPOLLET`: an
ESTABLISHED connection that already sent FIN to the tap (`TAP_FIN_SENT`,
a valid event combination) gets `EPOLLET` alone even when stalled,
because `tcp_conn_epoll_events()` tests `TAP_FIN_SENT` first. -/
theorem tcp_epoll_mask_claim_false :
    ¬ (∀ (ev : ConnEvents) (fl : ConnFlags),
        (ev.tapFinSent = true → ev.established = true) →
        (fl.stalled = true →
          (tcp_conn_epoll_events ev fl).epollin = true ∧
          (tcp_conn_epoll_events ev fl).epollout = true ∧
          (tcp_conn_epoll_events ev fl).epollrdhup = true ∧
          (tcp_conn_epoll_events ev fl).epollet = true) ∧
        (ev.tapFinSent = true → fl.stalled = false →
          tcp_conn_epoll_events ev fl = { epollet := true })) := by
  intro h
  have h1 := (h { established := true, tapFinSent := true } { stalled := true }
      (fun _ => rfl)).1 rfl
  revert h1
  decide

/-- C8 (amended): for an ESTABLISHED connection that has not yet sent FIN
to the tap, `STALLED` asserted yields the mask
`EPOLLIN|EPOLLOUT|EPOLLRDHUP|EPOLLET`; for a connection with
`TAP_FIN_SENT` set (necessarily ESTABLISHED, and whether or not
`STALLED` is set) the registered mask is `EPOLLET` alone. -/
theorem tcp_epoll_mask_amended (ev : ConnEvents) (fl : ConnFlags)
    (hvalid : ev.tapFinSent = true → ev.established = true) :
    (ev.established = true → ev.tapFinSent = false → fl.stalled = true →
      tcp_conn_epoll_events ev fl =
        { epollin := true, epollout := true, epollrdhup := true,
          epollet := true }) ∧
    (ev.tapFinSent = true →
      tcp_conn_epoll_events ev fl = { epollet := true }) := by
  constructor
  · intro hest hfin hst
    simp [tcp_conn_epoll_events, ConnEvents.isClosed, hest, hfin, hst]
  · intro hfin
    have hest := hvalid hfin
    simp [tcp_conn_epoll_events, ConnEvents.isClosed, hest, hfin]

/-- Witness for `tcp_epoll_mask_amended`: a stalled ESTABLISHED
connection gets the full mask, and one with `TAP_FIN_SENT` gets
`EPOLLET` alone. -/
theorem tcp_epoll_mask_amended_witness :
    tcp_conn_epoll_events { established := true } { stalled := true } =
      { epollin := true, epollout := true, epollrdhup := true,
        epollet := true } ∧
    tcp_conn_epoll_events { established := true, tapFinSent := true }
        { stalled := false } = { epollet := true } :=
  ⟨(tcp_epoll_mask_amended { established := true } { stalled := true }
      (by intro h; exact absurd h (by decide))).1 rfl rfl rfl,
   (tcp_epoll_mask_amended { established := true, tapFinSent := true }
      { stalled := false } (fun _ => rfl)).2 rfl⟩

/-! ## TCP per-connection timer (tcp.c)

`tcp_timer_handler()` after the timerfd re-arm check: dispatch on the
`ACK_TO_TAP_DUE` / `ACK_FROM_TAP_DUE` flags and the connection events. -/

/-- What `tcp_timer_handler()` does once the timer has really expired. -/
inductive TcpTimerAction where
  /-- `tcp_send_flag(c, conn, ACK_IF_NEEDED)` then re-arm the timer. -/
  | sendAck
  /-- `tcp_rst()`: RST to tap, connection CLOSED. -/
  | reset
  /-- Retransmit: `conn->retrans++`, `conn->seq_to_tap =
  conn->seq_ack_from_tap`, `tcp_data_from_sock()` rebuilds data frames. -/
  | retransmit
  /-- Activity-timeout bookkeeping branch (no flag set). -/
  | activityCheck
deriving DecidableEq

/-- Connection state affected by the timer handler. -/
structure TcpTimerEffect where
  action : TcpTimerAction
  retrans : Nat
  seqToTap : Nat
deriving DecidableEq

/-- `tcp_timer_handler()` (tcp.c), dispatch after the `timerfd_gettime`
spurious-expiry check.  `maxRetrans` is `TCP_MAX_RETRANS` from
tcp_conn.h (not among the given sources), kept abstract. -/
def tcp_timer_handler (fl : ConnFlags) (ev : ConnEvents)
    (retrans maxRetrans seqToTap seqAckFromTap : Nat) : TcpTimerEffect :=
  if fl.ackToTapDue then
    { action := .sendAck, retrans := retrans, seqToTap := seqToTap }
  else if fl.ackFromTapDue then
    if !ev.established then
      { action := .reset, retrans := retrans, seqToTap := seqToTap }
    else if ev.sockFinSent && ev.tapFinAcked then
      { action := .reset, retrans := retrans, seqToTap := seqToTap }
    else if retrans = maxRetrans then
      { action := .reset, retrans := retrans, seqToTap := seqToTap }
    else
      { action := .retransmit, retrans := retrans + 1,
        seqToTap := seqAckFromTap }
  else
    { action := .activityCheck, retrans := retrans, seqToTap := seqToTap }

/-- C6 counterexample: the timer behaviour claimed for `ACK_FROM_TAP_DUE`
on an ESTABLISHED connection does not hold unconditionally: when
`ACK_TO_TAP_DUE` is also pending, that branch wins and the handler only
sends an ACK, even with `retrans == MAX_RETRANS`. -/
theorem tcp_timer_claim_false :
    ¬ (∀ (fl : ConnFlags) (ev : ConnEvents)
        (retrans maxRetrans seqToTap seqAckFromTap : Nat),
        fl.ackFromTapDue = true → ev.established = true →
        ¬ (ev.sockFinSent = true ∧ ev.tapFinAcked = true) →
        ((retrans = maxRetrans →
          (tcp_timer_handler fl ev retrans maxRetrans seqToTap
            seqAckFromTap).action = .reset) ∧
         (retrans ≠ maxRetrans →
          tcp_timer_handler fl ev retrans maxRetrans seqToTap
            seqAckFromTap =
            { action := .retransmit, retrans := retrans + 1,
              seqToTap := seqAckFromTap }))) := by
  intro h
  have h1 := (h { ackToTapDue := true, ackFromTapDue := true }
      { established := true } 7 7 100 50 rfl rfl (by simp)).1 rfl
  revert h1
  decide

/-- C6 (amended): when the per-connection timer fires with
`ACK_FROM_TAP_DUE` set and `ACK_TO_TAP_DUE` clear on an ESTABLISHED
connection not in FIN teardown (`SOCK_FIN_SENT` and `TAP_FIN_ACKED` not
both set): if `retrans` equals `MAX_RETRANS` the connection is reset,
otherwise `retrans` is incremented, `seq_to_tap` is rewound to
`seq_ack_from_tap` and the data frames are rebuilt from the socket. -/
theorem tcp_timer_retransmit_bounded (fl : ConnFlags) (ev : ConnEvents)
    (retrans maxRetrans seqToTap seqAckFromTap : Nat)
    (hdue : fl.ackFromTapDue = true) (hnoack : fl.ackToTapDue = false)
    (hest : ev.established = true)
    (hnofin : ¬ (ev.sockFinSent = true ∧ ev.tapFinAcked = true)) :
    (retrans = maxRetrans →
      (tcp_timer_handler fl ev retrans maxRetrans seqToTap
        seqAckFromTap).action = .reset) ∧
    (retrans ≠ maxRetrans →
      tcp_timer_handler fl ev retrans maxRetrans seqToTap seqAckFromTap =
        { action := .retransmit, retrans := retrans + 1,
          seqToTap := seqAckFromTap }) := by
  have hfin : (ev.sockFinSent && ev.tapFinAcked) = false := by
    cases hs : ev.sockFinSent <;> cases ht : ev.tapFinAcked <;> simp_all
  constructor
  · intro hmax
    simp [tcp_timer_handler, hdue, hnoack, hest, hfin, hmax]
  · intro hne
    simp [tcp_timer_handler, hdue, hnoack, hest, hfin, hne]

/-- Witness for `tcp_timer_retransmit_bounded`: retrans at the cap 7
resets; retrans 2 of 7 retransmits and rewinds `seq_to_tap`. -/
theorem tcp_timer_retransmit_bounded_witness :
    (tcp_timer_handler { ackFromTapDue := true } { established := true }
      7 7 1000 400).action = .reset ∧
    tcp_timer_handler { ackFromTapDue := true } { established := true }
      2 7 1000 400 =
      { action := .retransmit, retrans := 3, seqToTap := 400 } :=
  ⟨(tcp_timer_retransmit_bounded { ackFromTapDue := true }
      { established := true } 7 7 1000 400 rfl rfl rfl (by simp)).1 rfl,
   (tcp_timer_retransmit_bounded { ackFromTapDue := true }
      { established := true } 2 7 1000 400 rfl rfl rfl (by simp)).2
      (by norm_num)⟩

/-! ## Guest-originated connections: bind-before-connect (tcp.c)

The tail of `tcp_conn_from_tap()` after the flow is hashed:

    if (!bind(s, sa, sl)) {
        tcp_rst(c, conn);    /* Nobody is listening then */
        return;
    }
    if (errno != EADDRNOTAVAIL && errno != EACCES)
        conn_flag(c, conn, LOCAL);
    ...
    if (connect(s, sa, sl)) {
        if (errno != EINPROGRESS) {
            tcp_rst(c, conn);
            return;
        }
        ...
-/

/-- Outcome of a C system call: 0, or -1 with an `errno` value. -/
inductive SyscallResult where
  | ok
  | fail (errno : Nat)
deriving DecidableEq

def EADDRNOTAVAIL : Nat := 99
def EACCES : Nat := 13
def EINPROGRESS : Nat := 115

/-- What the bind-then-connect tail of `tcp_conn_from_tap()` did: whether
RST was sent to the tap (which closes the flow), whether `connect()` was
ever invoked, and whether the `LOCAL` flag was set. -/
structure ConnFromTapOutcome where
  rstToTap : Bool
  connectCalled : Bool
  localFlag : Bool
deriving DecidableEq

/-- The bind-before-connect decision sequence of `tcp_conn_from_tap()`
(tcp.c), as a function of the results of the `bind()` and `connect()`
calls on the new socket. -/
def tcp_conn_from_tap_bind_connect (bindRes connectRes : SyscallResult) :
    ConnFromTapOutcome :=
  match bindRes with
  | .ok =>
    { rstToTap := true, connectCalled := false, localFlag := false }
  | .fail e =>
    let localFlag := (e != EADDRNOTAVAIL) && (e != EACCES)
    match connectRes with
    | .ok => { rstToTap := false, connectCalled := true, localFlag }
    | .fail e' =>
      if e' != EINPROGRESS then
        { rstToTap := true, connectCalled := true, localFlag }
      else
        { rstToTap := false, connectCalled := true, localFlag }

/-- C10: in `tcp_conn_from_tap()`, a successful `bind()` to the
destination (no local listener) makes the translator RST the tap and
abandon the flow without calling `connect()`; only a failed `bind()`
proceeds to `connect()`, and a bind errno other than
`EADDRNOTAVAIL`/`EACCES` marks the connection `LOCAL`. -/
theorem tcp_conn_from_tap_bind_gates_connect
    (bindRes connectRes : SyscallResult) :
    (bindRes = .ok →
      tcp_conn_from_tap_bind_connect bindRes connectRes =
        { rstToTap := true, connectCalled := false, localFlag := false }) ∧
    (∀ e, bindRes = .fail e →
      (tcp_conn_from_tap_bind_connect bindRes connectRes).connectCalled =
        true ∧
      (tcp_conn_from_tap_bind_connect bindRes connectRes).localFlag =
        ((e != EADDRNOTAVAIL) && (e != EACCES))) := by
  constructor
  · intro hok
    subst hok
    rfl
  · intro e hfail
    subst hfail
    cases connectRes with
    | ok => exact ⟨rfl, rfl⟩
    | fail e' =>
      simp only [tcp_conn_from_tap_bind_connect]
      split <;> exact ⟨rfl, rfl⟩

/-- Witness for `tcp_conn_from_tap_bind_gates_connect`: a successful bind
RSTs without connecting; a bind failing `EADDRINUSE` (98) connects and
marks `LOCAL`. -/
theorem tcp_conn_from_tap_bind_gates_connect_witness :
    tcp_conn_from_tap_bind_connect .ok .ok =
      { rstToTap := true, connectCalled := false, localFlag := false } ∧
    (tcp_conn_from_tap_bind_connect (.fail 98)
        (.fail EINPROGRESS)).connectCalled = true ∧
    (tcp_conn_from_tap_bind_connect (.fail 98)
        (.fail EINPROGRESS)).localFlag = true :=
  ⟨(tcp_conn_from_tap_bind_gates_connect .ok .ok).1 rfl,
   ((tcp_conn_from_tap_bind_gates_connect (.fail 98)
      (.fail EINPROGRESS)).2 98 rfl).1,
   by
    have h := ((tcp_conn_from_tap_bind_gates_connect (.fail 98)
      (.fail EINPROGRESS)).2 98 rfl).2
    rw [h]
    decide⟩

/-! ## Batched data-frame flush and seq_to_tap advance (tcp.c)

`tcp_data_to_tap()` records, for each queued data frame, a pointer to the
connection's `seq_to_tap` and the frame's TCP payload length in the
sidecar tables `tcp{4,6}_l2_buf_seq_update`.  The deferred flush then
advances the sequences for exactly the frames the tap accepted:

    m = tap_send_frames(c, tcp6_l2_iov, 1, tcp6_l2_buf_used);
    for (i = 0; i < m; i++)
        *tcp6_l2_buf_seq_update[i].seq += tcp6_l2_buf_seq_update[i].len;
    tcp6_l2_buf_used = 0;

    m = tap_send_frames(c, tcp4_l2_iov, 1, tcp4_l2_buf_used);
    for (i = 0; i < m; i++)
        *tcp4_l2_buf_seq_update[i].seq += tcp4_l2_buf_seq_update[i].len;
    tcp4_l2_buf_used = 0;

`tap_send_frames()` (tap.c) returns how many of the first frames went
out; its return values `m6`, `m4` are inputs of the model.  The
`seq` pointers always point at some connection's `seq_to_tap`
(`uint32_t`, so the addition wraps at `2^32`); connections are identified
by an abstract index here. -/

/-- One entry of `struct tcp_buf_seq_update`: the connection whose
`seq_to_tap` the recorded frame advances, and the frame's TCP payload
length. -/
structure SeqUpdate where
  conn : Nat
  len : Nat
deriving DecidableEq

/-- The `for (i = 0; i < m; i++) *upd[i].seq += upd[i].len;` loop over a
prefix of the sidecar table, on the per-connection `seq_to_tap` map. -/
def applySeqUpdates (seqs : Nat → Nat) : List SeqUpdate → (Nat → Nat)
  | [] => seqs
  | u :: rest =>
    applySeqUpdates
      (fun c => if c = u.conn then (seqs c + u.len) % 2 ^ 32 else seqs c) rest

/-- The TCP data-buffer state affected by the flush: per-connection
`seq_to_tap`, and the two sidecar tables (as lists of the `used`
entries). -/
structure TcpFlushState where
  seqs : Nat → Nat
  upd6 : List SeqUpdate
  upd4 : List SeqUpdate

/-- `tcp_l2_data_buf_flush()` (tcp.c): given that `tap_send_frames()`
reported `m6` v6 frames and `m4` v4 frames sent, advance `seq_to_tap` by
the recorded length of each sent frame and reset both `used` counters. -/
def tcp_l2_data_buf_flush (st : TcpFlushState) (m6 m4 : Nat) :
    TcpFlushState :=
  { seqs := applySeqUpdates (applySeqUpdates st.seqs (st.upd6.take m6))
      (st.upd4.take m4),
    upd6 := [], upd4 := [] }

/-- Total payload bytes recorded for connection `c` in a list of sidecar
entries. -/
def seqBytes (c : Nat) : List SeqUpdate → Nat
  | [] => 0
  | u :: rest => (if u.conn = c then u.len else 0) + seqBytes c rest

theorem applySeqUpdates_apply (c : Nat) :
    ∀ (L : List SeqUpdate) (seqs : Nat → Nat), seqs c < 2 ^ 32 →
      applySeqUpdates seqs L c = (seqs c + seqBytes c L) % 2 ^ 32
  | [], seqs, h => by
    rw [applySeqUpdates, seqBytes, Nat.add_zero, Nat.mod_eq_of_lt h]
  | u :: rest, seqs, h => by
    rw [applySeqUpdates, seqBytes]
    by_cases hc : c = u.conn
    · rw [applySeqUpdates_apply c rest _
        (by simp only [if_pos hc]; exact Nat.mod_lt _ (by norm_num))]
      simp only [if_pos hc, if_pos hc.symm]
      omega
    · rw [applySeqUpdates_apply c rest _ (by simp only [if_neg hc]; exact h)]
      have hcc : ¬ (u.conn = c) := fun hh => hc hh.symm
      simp only [if_neg hc, if_neg hcc]
      omega

theorem applySeqUpdates_lt (c : Nat) :
    ∀ (L : List SeqUpdate) (seqs : Nat → Nat), seqs c < 2 ^ 32 →
      applySeqUpdates seqs L c < 2 ^ 32
  | [], _, h => h
  | u :: rest, seqs, h => by
    rw [applySeqUpdates]
    apply applySeqUpdates_lt c rest
    by_cases hc : c = u.conn
    · rw [if_pos hc]; exact Nat.mod_lt _ (by norm_num)
    · rw [if_neg hc]; exact h

/-- C1: after `tcp_l2_data_buf_flush`, each connection's `seq_to_tap` has
advanced (modulo `2^32`) by exactly the total recorded payload length of
its frames among the first `m6`/`m4` frames reported sent by
`tap_send_frames`; in particular a connection none of whose frames were
sent keeps its `seq_to_tap` untouched, and entries beyond the sent
prefix (a failed or short batch) have no effect on any sequence. -/
theorem seq_to_tap_advances_by_flushed_bytes (st : TcpFlushState)
    (m6 m4 : Nat) (c : Nat) (hm6 : m6 ≤ st.upd6.length)
    (hm4 : m4 ≤ st.upd4.length) (hc : st.seqs c < 2 ^ 32) :
    ((tcp_l2_data_buf_flush st m6 m4).seqs c =
      (st.seqs c + (seqBytes c (st.upd6.take m6) +
        seqBytes c (st.upd4.take m4))) % 2 ^ 32) ∧
    (seqBytes c (st.upd6.take m6) = 0 → seqBytes c (st.upd4.take m4) = 0 →
      (tcp_l2_data_buf_flush st m6 m4).seqs c = st.seqs c) ∧
    (∀ extra6 extra4 : List SeqUpdate,
      (tcp_l2_data_buf_flush
        { st with upd6 := st.upd6.take m6 ++ extra6,
                  upd4 := st.upd4.take m4 ++ extra4 } m6 m4).seqs c =
      (tcp_l2_data_buf_flush st m6 m4).seqs c) := by
  have key : (tcp_l2_data_buf_flush st m6 m4).seqs c =
      (st.seqs c + (seqBytes c (st.upd6.take m6) +
        seqBytes c (st.upd4.take m4))) % 2 ^ 32 := by
    show applySeqUpdates (applySeqUpdates st.seqs (st.upd6.take m6))
        (st.upd4.take m4) c = _
    rw [applySeqUpdates_apply c _ _ (applySeqUpdates_lt c _ _ hc),
      applySeqUpdates_apply c _ _ hc, Nat.mod_add_mod, Nat.add_assoc]
  refine ⟨key, ?_, ?_⟩
  · intro h6 h4
    rw [key, h6, h4]
    omega
  · intro extra6 extra4
    show applySeqUpdates (applySeqUpdates st.seqs
        ((st.upd6.take m6 ++ extra6).take m6))
        ((st.upd4.take m4 ++ extra4).take m4) c = _
    rw [List.take_append_of_le_length (by simpa using hm6),
      List.take_append_of_le_length (by simpa using hm4),
      List.take_take, Nat.min_self, List.take_take, Nat.min_self]
    rfl

/-- Witness for `seq_to_tap_advances_by_flushed_bytes`: two v4 frames of
10 and 20 bytes recorded for connection 0 and one of 5 bytes for
connection 1; the tap accepts only the first two v4 frames, so
connection 0 advances by 30 and connection 1 is untouched. -/
theorem seq_to_tap_advances_by_flushed_bytes_witness :
    (tcp_l2_data_buf_flush
      { seqs := fun _ => 1000, upd6 := [],
        upd4 := [⟨0, 10⟩, ⟨0, 20⟩, ⟨1, 5⟩] } 0 2).seqs 0 =
      (1000 + (0 + (10 + (20 + 0)))) % 2 ^ 32 := by
  have h := (seq_to_tap_advances_by_flushed_bytes
    { seqs := fun _ => 1000, upd6 := [], upd4 := [⟨0, 10⟩, ⟨0, 20⟩, ⟨1, 5⟩] }
    0 2 0 (by simp) (by simp) (by norm_num)).1
  simpa [seqBytes] using h

/-! ## File-descriptor bound checks (util.c, tcp.c)

`FD_REF_MAX = (1 << FD_REF_BITS) - 1` with `FD_REF_BITS = 24`
(passt.h).  Each site that creates a socket checks the returned fd
against it — except the `accept4()` in `tcp_listen_handler()`. -/

def FD_REF_MAX : Int := 2 ^ 24 - 1

def EBADF : Int := 9
def EIO : Int := 5

/-- Outcome of a socket-creating path: the value returned to the caller
(fd or negative error), whether the fd was closed again, and whether an
epoll entry was registered for it. -/
structure FdCheckOutcome where
  ret : Int
  closedFd : Bool
  epollRegistered : Bool
deriving DecidableEq

/-- `tcp_conn_new_sock()` (tcp.c): `socket()` returned `s` with errno
`err`; the function checks `s > FD_REF_MAX` before the error check and
never registers epoll itself. -/
def tcp_conn_new_sock (s err : Int) : FdCheckOutcome :=
  if s > FD_REF_MAX then
    { ret := - EIO, closedFd := true, epollRegistered := false }
  else if s < 0 then
    { ret := -err, closedFd := false, epollRegistered := false }
  else
    { ret := s, closedFd := false, epollRegistered := false }

/-- `udp_splice_new()` fd handling (udp.c): same check as
`tcp_conn_new_sock()` but a failed `socket()` returns `s` itself. -/
def udp_splice_new_fd_check (s : Int) : FdCheckOutcome :=
  if s > FD_REF_MAX then
    { ret := - EIO, closedFd := true, epollRegistered := false }
  else if s < 0 then
    { ret := s, closedFd := false, epollRegistered := false }
  else
    { ret := s, closedFd := false, epollRegistered := false }

/-- `sock_l4()` fd handling (util.c): a failed `socket()` returns
`-errno`; an fd above `FD_REF_MAX` is closed and `-EBADF` — not `- EIO` —
is returned; otherwise the socket is bound and registered in epoll (the
model takes the success path of the remaining syscalls). -/
def sock_l4_fd_check (fd err : Int) : FdCheckOutcome :=
  if fd < 0 then
    { ret := -err, closedFd := false, epollRegistered := false }
  else if fd > FD_REF_MAX then
    { ret := -EBADF, closedFd := true, epollRegistered := false }
  else
    { ret := fd, closedFd := false, epollRegistered := true }

/-- `tcp_listen_handler()` (tcp.c) accept handling: `accept4()` returned
`s`; the only check is `s < 0` (cancel the flow).  Returns whether the
handler proceeds to set up a connection on `s`, and whether it closed
`s`. -/
def tcp_listen_handler_accept (s : Int) : Bool × Bool :=
  if s < 0 then (false, false) else (true, false)

/-- C4 counterexample: it is not true that every `socket()`/`accept()`
path reports `- EIO` for fds above `FD_REF_MAX`: `sock_l4()` returns
`-EBADF` for such an fd, and the `accept4()` in `tcp_listen_handler()`
does not check the bound at all — it proceeds with the oversized fd. -/
theorem fd_ref_max_claim_false :
    ¬ (∀ s err, s > FD_REF_MAX →
        (sock_l4_fd_check s err).ret = - EIO ∧
        tcp_listen_handler_accept s = (false, true)) := by
  intro h
  have h1 := h (FD_REF_MAX + 1) 0 (by norm_num)
  revert h1
  decide

/-- C4 (amended): an fd above `FD_REF_MAX = 2^24 - 1` returned by
`socket()` is immediately closed, with no epoll entry registered for it,
and the operation fails: with `- EIO` in `tcp_conn_new_sock()` and
`udp_splice_new()`, but with `-EBADF` in `sock_l4()`; the `accept4()`
path in `tcp_listen_handler()`, however, performs no such check and
proceeds with the oversized fd. -/
theorem fd_ref_max_fd_checks (s err : Int) (hs : s > FD_REF_MAX) :
    tcp_conn_new_sock s err =
      { ret := - EIO, closedFd := true, epollRegistered := false } ∧
    udp_splice_new_fd_check s =
      { ret := - EIO, closedFd := true, epollRegistered := false } ∧
    sock_l4_fd_check s err =
      { ret := -EBADF, closedFd := true, epollRegistered := false } ∧
    tcp_listen_handler_accept s = (true, false) := by
  have hnn : ¬ (s < 0) := by
    have : (0 : Int) ≤ FD_REF_MAX := by norm_num [FD_REF_MAX]
    omega
  refine ⟨?_, ?_, ?_, ?_⟩
  · simp [tcp_conn_new_sock, hs]
  · simp [udp_splice_new_fd_check, hs]
  · simp [sock_l4_fd_check, hs, hnn]
  · simp [tcp_listen_handler_accept, hnn]

/-- Witness for `fd_ref_max_fd_checks` at fd `2^24`. -/
theorem fd_ref_max_fd_checks_witness :
    tcp_conn_new_sock (2 ^ 24) 0 =
      { ret := - EIO, closedFd := true, epollRegistered := false } ∧
    udp_splice_new_fd_check (2 ^ 24) =
      { ret := - EIO, closedFd := true, epollRegistered := false } ∧
    sock_l4_fd_check (2 ^ 24) 0 =
      { ret := -EBADF, closedFd := true, epollRegistered := false } ∧
    tcp_listen_handler_accept (2 ^ 24) = (true, false) :=
  fd_ref_max_fd_checks (2 ^ 24) 0 (by norm_num [FD_REF_MAX])

/-! ## TCP hash table (tcp.c)

`tc_hash` is a linear-probing hash table of flow side-indices, probed
*backwards* (`b = mod_sub(b, 1, TCP_HASH_TABLE_SIZE)`).  The model keeps
the table size `H`, the flow type `F`, the key extraction (`faddr`,
`eport`, `fport` — `tcp_hash_match`) and the hash (`tcp_hash`, siphash of
the key) abstract; buckets hold `Option F` (`FLOW_SIDX_NONE` = `none`).
`mod_sub()` and `mod_between()` live in util.h, which is not among the
given sources. -/

/-- Modelled from the spec: `mod_sub(x, y, m)` (util.h, not among the
given sources): subtraction modulo the table size, used to step the
probe backwards. -/
def mod_sub (x y m : Nat) : Nat := (x % m + (m - y % m)) % m

/-- Modelled from the spec: `mod_between(x, i, j, m)` (util.h, not among
the given sources): cyclic interval test `x ∈ (i, j)` used by the
Robin-Hood back-shift of `tcp_hash_remove()`. -/
def mod_between (x i j m : Nat) : Bool := mod_sub x i m < mod_sub j i m

theorem mod_sub_eq_val (m : Nat) (hm : 0 < m) (x y : Nat) :
    haveI : NeZero m := ⟨by omega⟩
    mod_sub x y m = ((x : ZMod m) - (y : ZMod m)).val := by
  haveI : NeZero m := ⟨by omega⟩
  have hcast : ((x % m + (m - y % m) : Nat) : ZMod m) =
      (x : ZMod m) - (y : ZMod m) := by
    push_cast [ZMod.natCast_mod]
    rw [Nat.cast_sub (le_of_lt (Nat.mod_lt y hm)), ZMod.natCast_self,
      ZMod.natCast_mod]
    ring
  have := ZMod.val_natCast (n := m) (x % m + (m - y % m))
  rw [hcast] at this
  exact this.symm

theorem mod_sub_lt (x y m : Nat) (hm : 0 < m) : mod_sub x y m < m :=
  Nat.mod_lt _ hm

theorem mod_sub_zero (x m : Nat) (hx : x < m) : mod_sub x 0 m = x := by
  have hm : 0 < m := by omega
  haveI : NeZero m := ⟨by omega⟩
  rw [mod_sub_eq_val m hm, Nat.cast_zero, sub_zero, ZMod.val_cast_of_lt hx]

theorem mod_sub_mod_sub (x i j m : Nat) (hm : 0 < m) :
    mod_sub (mod_sub x i m) j m = mod_sub x (i + j) m := by
  haveI : NeZero m := ⟨by omega⟩
  rw [mod_sub_eq_val m hm x i, mod_sub_eq_val m hm, mod_sub_eq_val m hm x]
  rw [ZMod.natCast_val, ZMod.cast_id]
  push_cast
  ring_nf

theorem mod_sub_cancel (b e m : Nat) (hm : 0 < m) (he : e < m) :
    mod_sub b (mod_sub b e m) m = e := by
  haveI : NeZero m := ⟨by omega⟩
  rw [mod_sub_eq_val m hm b e, mod_sub_eq_val m hm]
  rw [ZMod.natCast_val, ZMod.cast_id, sub_sub_cancel, ZMod.val_cast_of_lt he]

section TcpHash

variable {F K : Type} [DecidableEq F] [DecidableEq K]

/-- The linear-probing loop of `tcp_hash_probe()` (tcp.c): from bucket
`b`, step backwards while the bucket is neither `FLOW_SIDX_NONE` nor the
probed connection itself.  `fuel` bounds the walk (the C loop relies on
the table never being full, which the `static_assert` on
`TCP_HASH_TABLE_SIZE` guarantees). -/
def probeFrom (H : Nat) (tab : Nat → Option F) (t : F) :
    Nat → Nat → Nat
  | 0, b => b
  | fuel + 1, b =>
    match tab b with
    | none => b
    | some g => if g = t then b else probeFrom H tab t fuel (mod_sub b 1 H)

/-- `tcp_hash_probe()` (tcp.c): find the connection's bucket, or a free
bucket for it, by backwards linear probing from the hashed key. -/
def tcp_hash_probe (H : Nat) (key : F → K) (hashK : K → Nat)
    (tab : Nat → Option F) (f : F) : Nat :=
  probeFrom H tab f H (hashK (key f) % H)

/-- `tcp_hash_insert()` (tcp.c): store the connection in the probed
bucket. -/
def tcp_hash_insert (H : Nat) (key : F → K) (hashK : K → Nat)
    (tab : Nat → Option F) (f : F) : Nat → Option F :=
  Function.update tab (tcp_hash_probe H key hashK tab f) (some f)

/-- The Robin-Hood back-shift scan of `tcp_hash_remove()` (tcp.c):
starting just below the removed bucket `b`, entries whose ideal bucket is
not in the cyclic interval `(s, b)` are shifted into the hole; the final
hole is cleared. -/
def removeScan (H : Nat) (key : F → K) (hashK : K → Nat) :
    Nat → (Nat → Option F) → Nat → Nat → (Nat → Option F)
  | 0, tab, b, _ => Function.update tab b none
  | fuel + 1, tab, b, s =>
    match tab s with
    | none => Function.update tab b none
    | some g =>
      if mod_between (hashK (key g) % H) s b H then
        removeScan H key hashK fuel tab b (mod_sub s 1 H)
      else
        removeScan H key hashK fuel (Function.update tab b (some g)) s
          (mod_sub s 1 H)

/-- `tcp_hash_remove()` (tcp.c): drop the connection from the hash table;
a probe landing on an empty bucket means a redundant remove. -/
def tcp_hash_remove (H : Nat) (key : F → K) (hashK : K → Nat)
    (tab : Nat → Option F) (f : F) : Nat → Option F :=
  match tab (tcp_hash_probe H key hashK tab f) with
  | none => tab
  | some _ =>
    removeScan H key hashK H tab (tcp_hash_probe H key hashK tab f)
      (mod_sub (tcp_hash_probe H key hashK tab f) 1 H)

/-- A bucket stops the probe walk for target `t`: it is empty or holds
`t` itself. -/
def probeStop (tab : Nat → Option F) (t : F) (x : Nat) : Prop :=
  tab x = none ∨ tab x = some t

instance probeStopDecidable (tab : Nat → Option F) (t : F) :
    DecidablePred (probeStop tab t) := fun x => by
  unfold probeStop
  infer_instance

theorem probeFrom_first_stop (H : Nat) (tab : Nat → Option F) (t : F) :
    ∀ (n fuel b : Nat), b < H → n ≤ fuel →
      (∀ j < n, ¬ probeStop tab t (mod_sub b j H)) →
      probeStop tab t (mod_sub b n H) →
      probeFrom H tab t fuel b = mod_sub b n H
  | 0, fuel, b, hb, _, _, hstop => by
    rw [mod_sub_zero b H hb] at hstop ⊢
    cases fuel with
    | zero => rfl
    | succ fuel =>
      rw [probeFrom]
      rcases hstop with h | h
      · rw [h]
      · rw [h]
        simp
  | n + 1, 0, b, _, hnf, _, _ => absurd hnf (by omega)
  | n + 1, fuel + 1, b, hb, hnf, hns, hstop => by
    have hm : 0 < H := by omega
    have h0 : ¬ probeStop tab t b := by
      have := hns 0 (by omega)
      rwa [mod_sub_zero b H hb] at this
    rw [probeFrom]
    rcases hg : tab b with _ | g
    · exact absurd (Or.inl hg) h0
    · have hgt : g ≠ t := fun he => h0 (Or.inr (he ▸ hg))
      show (if g = t then b else probeFrom H tab t fuel (mod_sub b 1 H)) =
        mod_sub b (n + 1) H
      rw [if_neg hgt]
      have hshift : ∀ j, mod_sub (mod_sub b 1 H) j H = mod_sub b (1 + j) H :=
        fun j => mod_sub_mod_sub b 1 j H hm
      rw [probeFrom_first_stop H tab t n fuel (mod_sub b 1 H)
        (mod_sub_lt b 1 H hm) (by omega)
        (fun j hj => by rw [hshift j]; exact hns (1 + j) (by omega))
        (by rw [hshift n, Nat.add_comm]; exact hstop)]
      rw [hshift n, Nat.add_comm]

theorem probe_result (H : Nat) (tab : Nat → Option F) (t : F) (b : Nat)
    (hb : b < H) (hfree : ∃ e, e < H ∧ tab e = none) :
    probeFrom H tab t H b < H ∧ probeStop tab t (probeFrom H tab t H b) := by
  have hm : 0 < H := by omega
  rcases hfree with ⟨e, he, hnone⟩
  have hex : ∃ n, probeStop tab t (mod_sub b n H) :=
    ⟨mod_sub b e H, by rw [mod_sub_cancel b e H hm he]; exact Or.inl hnone⟩
  classical
  let n₀ := Nat.find hex
  have hn₀ : probeStop tab t (mod_sub b n₀ H) := Nat.find_spec hex
  have hmin : ∀ j < n₀, ¬ probeStop tab t (mod_sub b j H) :=
    fun j hj => Nat.find_min hex hj
  have hn₀le : n₀ ≤ mod_sub b e H :=
    Nat.find_min' hex (by rw [mod_sub_cancel b e H hm he]; exact Or.inl hnone)
  have hn₀lt : n₀ ≤ H := le_trans hn₀le (le_of_lt (mod_sub_lt b e H hm))
  rw [probeFrom_first_stop H tab t n₀ H b hb hn₀lt hmin hn₀]
  exact ⟨mod_sub_lt b n₀ H hm, hn₀⟩

theorem probeFrom_lt (H : Nat) (tab : Nat → Option F) (t : F) :
    ∀ (fuel b : Nat), b < H → probeFrom H tab t fuel b < H
  | 0, _, hb => hb
  | fuel + 1, b, hb => by
    rw [probeFrom]
    cases tab b with
    | none => exact hb
    | some g =>
      show (if g = t then b else probeFrom H tab t fuel (mod_sub b 1 H)) < H
      split
      · exact hb
      · exact probeFrom_lt H tab t fuel _ (mod_sub_lt b 1 H (by omega))

/-- Number of buckets of the table whose content satisfies `p`. -/
def bucketCountP (H : Nat) (p : Option F → Bool) (tab : Nat → Option F) :
    Nat :=
  (List.range H).countP (fun i => p (tab i))

theorem countP_update_list (p : Option F → Bool) (tab : Nat → Option F)
    (b : Nat) (x : Option F) :
    ∀ (L : List Nat), L.Nodup → b ∈ L →
      L.countP (fun i => p (Function.update tab b x i)) +
          (if p (tab b) then 1 else 0)
        = L.countP (fun i => p (tab i)) + (if p x then 1 else 0)
  | [], _, hmem => absurd hmem (List.not_mem_nil b)
  | a :: L, hnd, hmem => by
    rw [List.countP_cons, List.countP_cons]
    rcases List.mem_cons.mp hmem with rfl | hbL
    · have hbnotL : b ∉ L := (List.nodup_cons.mp hnd).1
      have hL : L.countP (fun i => p (Function.update tab b x i)) =
          L.countP (fun i => p (tab i)) :=
        List.countP_congr (fun i hi => by
          rw [Function.update_noteq (fun he => hbnotL (by rw [← he]; exact hi))])
      rw [hL, Function.update_same]
      omega
    · have hab : a ≠ b := fun he =>
        (List.nodup_cons.mp hnd).1 (he ▸ hbL)
      have hIH := countP_update_list p tab b x L (List.nodup_cons.mp hnd).2 hbL
      rw [Function.update_noteq hab]
      omega

theorem bucketCountP_update (H : Nat) (p : Option F → Bool)
    (tab : Nat → Option F) (b : Nat) (x : Option F) (hb : b < H) :
    bucketCountP H p (Function.update tab b x) + (if p (tab b) then 1 else 0)
      = bucketCountP H p tab + (if p x then 1 else 0) :=
  countP_update_list p tab b x (List.range H) (List.nodup_range H)
    (List.mem_range.mpr hb)

theorem removeScan_countP (H : Nat) (key : F → K) (hashK : K → Nat)
    (p : Option F → Bool) (hpn : p none = false) :
    ∀ (fuel : Nat) (tab : Nat → Option F) (b s : Nat), b < H → s < H →
      bucketCountP H p (removeScan H key hashK fuel tab b s) +
          (if p (tab b) then 1 else 0)
        = bucketCountP H p tab
  | 0, tab, b, _, hb, _ => by
    rw [removeScan]
    have h := bucketCountP_update H p tab b none hb
    rw [hpn] at h
    simpa using h
  | fuel + 1, tab, b, s, hb, hs => by
    have hm : 0 < H := by omega
    rw [removeScan]
    cases hg : tab s with
    | none =>
      show bucketCountP H p (Function.update tab b none) + _ = _
      have h := bucketCountP_update H p tab b none hb
      rw [hpn] at h
      simpa using h
    | some g =>
      show bucketCountP H p
          (if mod_between (hashK (key g) % H) s b H then
            removeScan H key hashK fuel tab b (mod_sub s 1 H)
          else
            removeScan H key hashK fuel (Function.update tab b (some g)) s
              (mod_sub s 1 H)) + _ = _
      split
      · exact removeScan_countP H key hashK p hpn fuel tab b (mod_sub s 1 H)
          hb (mod_sub_lt s 1 H hm)
      · have hts : Function.update tab b (some g) s = some g := by
          by_cases hsb : s = b
          · rw [hsb, Function.update_same]
          · rw [Function.update_noteq hsb, hg]
        have hIH := removeScan_countP H key hashK p hpn fuel
          (Function.update tab b (some g)) s (mod_sub s 1 H) hs
          (mod_sub_lt s 1 H hm)
        rw [hts] at hIH
        have hupd := bucketCountP_update H p tab b (some g) hb
        omega

theorem tcp_hash_remove_countP (H : Nat) (key : F → K) (hashK : K → Nat)
    (tab : Nat → Option F) (f : F) (p : Option F → Bool)
    (hpn : p none = false) (hH : 0 < H)
    (hfind : tab (tcp_hash_probe H key hashK tab f) = some f) :
    bucketCountP H p (tcp_hash_remove H key hashK tab f) +
        (if p (some f) then 1 else 0)
      = bucketCountP H p tab := by
  have hblt : tcp_hash_probe H key hashK tab f < H :=
    probeFrom_lt H tab f H _ (Nat.mod_lt _ hH)
  have heq : tcp_hash_remove H key hashK tab f =
      removeScan H key hashK H tab (tcp_hash_probe H key hashK tab f)
        (mod_sub (tcp_hash_probe H key hashK tab f) 1 H) := by
    unfold tcp_hash_remove
    rw [hfind]
  rw [heq]
  have h := removeScan_countP H key hashK p hpn H tab
    (tcp_hash_probe H key hashK tab f)
    (mod_sub (tcp_hash_probe H key hashK tab f) 1 H) hblt
    (mod_sub_lt _ 1 H hH)
  rw [hfind] at h
  exact h

theorem tcp_hash_insert_countP (H : Nat) (key : F → K) (hashK : K → Nat)
    (tab : Nat → Option F) (f : F) (p : Option F → Bool)
    (hpn : p none = false) (hH : 0 < H)
    (hfree : ∃ e, e < H ∧ tab e = none)
    (habsent : ∀ i, i < H → tab i ≠ some f) :
    bucketCountP H p (tcp_hash_insert H key hashK tab f)
      = bucketCountP H p tab + (if p (some f) then 1 else 0) := by
  unfold tcp_hash_insert tcp_hash_probe
  obtain ⟨hlt, hstop⟩ := probe_result H tab f (hashK (key f) % H)
    (Nat.mod_lt _ hH) hfree
  have hnone : tab (probeFrom H tab f H (hashK (key f) % H)) = none := by
    rcases hstop with h | h
    · exact h
    · exact absurd h (habsent _ hlt)
  have h := bucketCountP_update H p tab _ (some f) hlt
  rw [hnone, hpn] at h
  simpa using h

/-- `tcp_hash_match()` as a bucket predicate: the bucket holds a flow
whose `(faddr, eport, fport)` key equals `k`. -/
def matchesKey (key : F → K) (k : K) : Option F → Bool
  | none => false
  | some g => decide (key g = k)

/-- Number of flow side-indices in the table matching key `k`. -/
def matchCount (H : Nat) (key : F → K) (k : K) (tab : Nat → Option F) :
    Nat :=
  bucketCountP H (matchesKey key k) tab

/-- Number of buckets storing exactly the flow side-index `v`. -/
def storeCount (H : Nat) (v : F) (tab : Nat → Option F) : Nat :=
  bucketCountP H (fun o => decide (o = some v)) tab

theorem bucketCountP_pos (H : Nat) (p : Option F → Bool)
    (tab : Nat → Option F) (i : Nat) (hi : i < H) (hp : p (tab i) = true) :
    0 < bucketCountP H p tab := by
  by_contra hz
  have h0 : bucketCountP H p tab = 0 := by omega
  have := List.countP_eq_zero.mp h0 i (List.mem_range.mpr hi)
  simp only [hp] at this
  exact this trivial

/-- C5 (amended): (a) at-most-one-match is preserved: inserting a flow
whose key has no match yet keeps every key matched by at most one
side-index, and `tcp_hash_remove` never increases any key's match count;
(b) `tcp_hash_remove` of a stored, probe-findable connection followed by
`tcp_hash_insert` of the same connection restores exactly the original
multiset of stored entries (every side-index occupies as many buckets as
before) — though, as the counterexample shows, not necessarily the
identical bucket assignment. -/
theorem tcp_hash_unique_and_reinsert (H : Nat) (key : F → K)
    (hashK : K → Nat) (tab : Nat → Option F) (f : F) (hH : 0 < H)
    (hfree : ∃ e, e < H ∧ tab e = none) :
    ((∀ k, matchCount H key k tab ≤ 1) →
      matchCount H key (key f) tab = 0 →
      ∀ k, matchCount H key k (tcp_hash_insert H key hashK tab f) ≤ 1) ∧
    (∀ k, matchCount H key k (tcp_hash_remove H key hashK tab f) ≤
      matchCount H key k tab) ∧
    (tab (tcp_hash_probe H key hashK tab f) = some f →
      storeCount H f tab ≤ 1 →
      ∀ v, storeCount H v
          (tcp_hash_insert H key hashK (tcp_hash_remove H key hashK tab f) f)
        = storeCount H v tab) := by
  have hblt : tcp_hash_probe H key hashK tab f < H :=
    probeFrom_lt H tab f H _ (Nat.mod_lt _ hH)
  refine ⟨?_, ?_, ?_⟩
  · intro hmo hfresh k
    have habsent : ∀ i, i < H → tab i ≠ some f := by
      intro i hi he
      have hpos := bucketCountP_pos H (matchesKey key (key f)) tab i hi
        (by rw [he]; simp [matchesKey])
      rw [show bucketCountP H (matchesKey key (key f)) tab =
        matchCount H key (key f) tab from rfl, hfresh] at hpos
      omega
    rw [show matchCount H key k (tcp_hash_insert H key hashK tab f) =
      bucketCountP H (matchesKey key k) (tcp_hash_insert H key hashK tab f)
      from rfl]
    rw [tcp_hash_insert_countP H key hashK tab f (matchesKey key k) rfl hH
      hfree habsent]
    by_cases hk : key f = k
    · have : matchCount H key k tab = 0 := hk ▸ hfresh
      rw [show bucketCountP H (matchesKey key k) tab =
        matchCount H key k tab from rfl, this]
      split <;> omega
    · have : matchesKey key k (some f) = false := by
        simp [matchesKey, hk]
      rw [this]
      simpa using hmo k
  · intro k
    rcases hb : tab (tcp_hash_probe H key hashK tab f) with _ | g
    · have heq : tcp_hash_remove H key hashK tab f = tab := by
        unfold tcp_hash_remove
        rw [hb]
      rw [heq]
    · have heq : tcp_hash_remove H key hashK tab f =
          removeScan H key hashK H tab (tcp_hash_probe H key hashK tab f)
            (mod_sub (tcp_hash_probe H key hashK tab f) 1 H) := by
        unfold tcp_hash_remove
        rw [hb]
      rw [heq]
      have h := removeScan_countP H key hashK (matchesKey key k) rfl H tab
        (tcp_hash_probe H key hashK tab f)
        (mod_sub (tcp_hash_probe H key hashK tab f) 1 H) hblt
        (mod_sub_lt _ 1 H hH)
      rw [hb] at h
      unfold matchCount
      omega
  · intro hfind hstore v
    have hremove := fun (p : Option F → Bool) (hpn : p none = false) =>
      tcp_hash_remove_countP H key hashK tab f p hpn hH hfind
    -- f is stored exactly once, so the removed table holds no f at all
    have hone : storeCount H f tab = 1 := by
      have hpos := bucketCountP_pos H (fun o => decide (o = some f)) tab
        (tcp_hash_probe H key hashK tab f) hblt (by rw [hfind]; simp)
      have : storeCount H f tab = bucketCountP H
        (fun o => decide (o = some f)) tab := rfl
      omega
    have hzero : storeCount H f (tcp_hash_remove H key hashK tab f) = 0 := by
      have h := hremove (fun o => decide (o = some f)) (by simp)
      have h' : storeCount H f (tcp_hash_remove H key hashK tab f) + 1 =
          storeCount H f tab := by
        simpa [storeCount] using h
      omega
    have habsent : ∀ i, i < H →
        tcp_hash_remove H key hashK tab f i ≠ some f := by
      intro i hi he
      have := List.countP_eq_zero.mp hzero i (List.mem_range.mpr hi)
      simp only [he] at this
      exact this (by simp)
    have hfree' : ∃ e, e < H ∧ tcp_hash_remove H key hashK tab f e = none := by
      have hocc := hremove (fun o => decide (o ≠ none)) (by simp)
      have hocc' : bucketCountP H (fun o => decide (o ≠ none))
          (tcp_hash_remove H key hashK tab f) + 1 =
          bucketCountP H (fun o => decide (o ≠ none)) tab := by
        simpa using hocc
      have hle : bucketCountP H (fun o => decide (o ≠ none)) tab ≤ H := by
        have h := List.countP_le_length
          (fun i => ((fun o => decide (o ≠ none)) (tab i)))
          (l := List.range H)
        rw [List.length_range] at h
        exact h
      have hlt : bucketCountP H (fun o => decide (o ≠ none))
          (tcp_hash_remove H key hashK tab f) < H := by omega
      by_contra hno
      push_neg at hno
      have h1 : ∀ i ∈ List.range H,
          (fun i => ((fun o => decide (o ≠ none))
            (tcp_hash_remove H key hashK tab f i))) i = true := by
        intro i hi
        simpa using hno i (List.mem_range.mp hi)
      have h2 := List.countP_eq_length.mpr h1
      rw [List.length_range] at h2
      have hall : bucketCountP H (fun o => decide (o ≠ none))
          (tcp_hash_remove H key hashK tab f) = H := h2
      omega
    have hins := tcp_hash_insert_countP H key hashK
      (tcp_hash_remove H key hashK tab f) f
      (fun o => decide (o = some v)) (by simp) hH hfree' habsent
    have hrem := hremove (fun o => decide (o = some v)) (by simp)
    rw [show storeCount H v (tcp_hash_insert H key hashK
      (tcp_hash_remove H key hashK tab f) f) = bucketCountP H
      (fun o => decide (o = some v)) (tcp_hash_insert H key hashK
      (tcp_hash_remove H key hashK tab f) f) from rfl, hins]
    rw [show storeCount H v tab =
      bucketCountP H (fun o => decide (o = some v)) tab from rfl]
    omega

/-- A concrete 5-bucket table refuting bucket-identity: all three stored
flows 10, 20, 30 hash to bucket 3; they occupy buckets 3, 2, 1. -/
def hashCollideTab : Nat → Option Nat := fun b =>
  if b = 3 then some 10 else if b = 2 then some 20
  else if b = 1 then some 30 else none

/-- C5 counterexample: `tcp_hash_remove` followed by `tcp_hash_insert` of
the same stored connection does *not* leave the table bucket-for-bucket
identical: with flows 10, 20, 30 all hashing to bucket 3 and stored at
3, 2, 1, removing 10 back-shifts 20 and 30, and re-inserting 10 lands it
in bucket 1; bucket 3 now holds 20 instead of 10. -/
theorem tcp_hash_remove_insert_not_identical :
    ¬ (∀ (tab : Nat → Option Nat) (f : Nat),
        (∃ e, e < 5 ∧ tab e = none) →
        tab (tcp_hash_probe 5 id (fun _ => 3) tab f) = some f →
        ∀ b, b < 5 →
          tcp_hash_insert 5 id (fun _ => 3)
            (tcp_hash_remove 5 id (fun _ => 3) tab f) f b = tab b) := by
  intro h
  have h3 := h hashCollideTab 10 ⟨0, by norm_num, rfl⟩ (by decide) 3
    (by norm_num)
  revert h3
  decide

/-- Witness for `tcp_hash_unique_and_reinsert` on the concrete 5-bucket
table: removing and re-inserting flow 10 leaves flow 20 stored in exactly
one bucket, as before. -/
theorem tcp_hash_unique_and_reinsert_witness :
    storeCount 5 (20 : Nat)
        (tcp_hash_insert 5 id (fun _ => 3)
          (tcp_hash_remove 5 id (fun _ => 3) hashCollideTab 10) 10)
      = storeCount 5 20 hashCollideTab :=
  (tcp_hash_unique_and_reinsert 5 id (fun _ => 3) hashCollideTab 10
    (by norm_num) ⟨0, by norm_num, rfl⟩).2.2 (by decide) (by decide) 20

end TcpHash

/-! ## Flow table free-cluster allocator (flow.c)

`flowtab[FLOW_MAX]` with `flow_first_free`: free slots form clusters whose
first entry stores the cluster length (`free.n`) and the index of the next
free cluster (`free.next`), making a linked list in strictly increasing
index order terminated by `FLOW_MAX`.  The value of `FLOW_MAX` comes from
flow_table.h (not among the given sources) and is kept abstract (`FM`).

Slots are modelled with a type tag (`0` = `FLOW_TYPE_NONE`; the model uses
`1` for any occupied variant) and the `free.n` / `free.next` fields of the
union.  `flow_alloc()` in the model also performs the caller's mandatory
`FLOW_START()` (the slot becomes occupied before the loop re-enters); the
flow-type specific deferred/timer handlers of `flow_defer_handler()` are
abstracted by an oracle `closes` saying which occupied slots report
"closed" on this pass. -/

/-- One slot of `flowtab[]`. -/
structure FlowSlot where
  ty : Nat
  n : Nat
  next : Nat
deriving DecidableEq

/-- `flowtab[]` plus `flow_first_free`. -/
structure FlowTable where
  tab : Nat → FlowSlot
  ff : Nat

/-- `flow_init()` (flow.c): a single free cluster containing the whole
table (the other slots and `flow_first_free` are zero-initialised
statics). -/
def flow_init (FM : Nat) : FlowTable :=
  { tab := fun i => if i = 0 then ⟨0, FM, FM⟩ else ⟨0, 0, 0⟩, ff := 0 }

/-- `flow_alloc()` (flow.c), followed by the caller's `FLOW_START()`:
take the slot at `flow_first_free`; if its cluster is longer than one,
the following slot becomes the new shorter cluster head, otherwise
`flow_first_free` advances to the next cluster.  Returns `none` when the
table is full. -/
def flow_alloc (FM : Nat) (s : FlowTable) : Option (FlowTable × Nat) :=
  if s.ff ≥ FM then none
  else
    let f := s.tab s.ff
    if f.n > 1 then
      some ({ tab := Function.update (Function.update s.tab s.ff ⟨1, 0, 0⟩)
                (s.ff + 1) ⟨0, f.n - 1, f.next⟩,
              ff := s.ff + 1 }, s.ff)
    else
      some ({ tab := Function.update s.tab s.ff ⟨1, 0, 0⟩,
              ff := f.next }, s.ff)

/-- `flow_alloc_cancel()` (flow.c): return the most recent allocation to
a length-1 free cluster at its index and point `flow_first_free` back at
it. -/
def flow_alloc_cancel (s : FlowTable) (idx : Nat) : FlowTable :=
  { tab := Function.update s.tab idx ⟨0, 1, s.ff⟩, ff := idx }

/-- The `last_next` pointer of `flow_defer_handler()`: either
`&flow_first_free` or `&flowtab[j].free.next`. -/
inductive LNext where
  | first
  | slot (j : Nat)
deriving DecidableEq

/-- `*last_next = v`. -/
def writeLN (s : FlowTable) (ln : LNext) (v : Nat) : FlowTable :=
  match ln with
  | .first => { s with ff := v }
  | .slot j =>
    { s with tab := Function.update s.tab j { s.tab j with next := v } }

/-- The scan loop of `flow_defer_handler()` (flow.c): walk the table,
rebuilding the free-cluster chain (merging adjacent clusters) and
retiring the occupied slots whose type-specific handler (`closes`)
reports them closed.  `fh` is `free_head` (index of the cluster being
grown, if any), `ln` is `last_next`; `fuel` bounds the loop (one table
pass always advances). -/
def flow_defer_scan (FM : Nat) (closes : Nat → Bool) :
    Nat → Nat → FlowTable → Option Nat → LNext → FlowTable × LNext
  | 0, _, s, _, ln => (s, ln)
  | fuel + 1, idx, s, fh, ln =>
    if idx < FM then
      let fl := s.tab idx
      if fl.ty = 0 then
        match fh with
        | some h =>
          flow_defer_scan FM closes fuel (idx + fl.n)
            { s with tab := (Function.update
                (Function.update s.tab h
                  { s.tab h with n := (s.tab h).n + fl.n })
                idx ⟨0, 0, 0⟩) }
            (some h) ln
        | none =>
          flow_defer_scan FM closes fuel (idx + fl.n) (writeLN s ln idx)
            (some idx) (.slot idx)
      else
        if closes idx then
          match fh with
          | some h =>
            flow_defer_scan FM closes fuel (idx + 1)
              { s with tab := (Function.update
                  (Function.update s.tab h
                    { s.tab h with n := (s.tab h).n + 1 })
                  idx ⟨0, 0, 0⟩) }
              (some h) ln
          | none =>
            flow_defer_scan FM closes fuel (idx + 1)
              (writeLN
                { s with tab := (Function.update s.tab idx
                    ⟨0, 1, (s.tab idx).next⟩) }
                ln idx)
              (some idx) (.slot idx)
        else
          flow_defer_scan FM closes fuel (idx + 1) s none ln
    else (s, ln)

/-- `flow_defer_handler()` (flow.c): run the scan over the whole table,
then terminate the rebuilt chain with `*last_next = FLOW_MAX`. -/
def flow_defer_handler (FM : Nat) (closes : Nat → Bool) (s : FlowTable) :
    FlowTable :=
  writeLN (flow_defer_scan FM closes FM 0 s none .first).1
    (flow_defer_scan FM closes FM 0 s none .first).2 FM

/-- The operations of the claim: `flow_alloc` (with its `FLOW_START`),
`flow_alloc_cancel` of the most recent allocation, and the deferred-GC
pass with an oracle for the per-variant handlers. -/
inductive FlowOp where
  | alloc
  | cancel (idx : Nat)
  | defer (closes : Nat → Bool)

/-- Apply one operation.  `flow_alloc_cancel()` is only reachable on the
most recent allocation (flow.c asserts `flow_first_free > FLOW_IDX(flow)`
and the flow is started, hence occupied); an out-of-contract cancel is a
no-op here, as is allocation from a full table. -/
def flowStep (FM : Nat) (s : FlowTable) : FlowOp → FlowTable
  | .alloc =>
    match flow_alloc FM s with
    | none => s
    | some (s', _) => s'
  | .cancel idx =>
    if idx < s.ff ∧ (s.tab idx).ty ≠ 0 then flow_alloc_cancel s idx else s
  | .defer closes => flow_defer_handler FM closes s

/-- Any sequence of operations from `flow_init()`. -/
def flowRun (FM : Nat) (ops : List FlowOp) : FlowTable :=
  ops.foldl (flowStep FM) (flow_init FM)

/-- The free-cluster chain: from pointer `p`, the list `L` of cluster
head indices in order.  Each head is in range, free, of length ≥ 1 and
within bounds, its interior slots are free with `free.n = 0`, and its
`next` link points past the cluster's end at the following head (or at
`FM` for the last cluster). -/
def chainOK (FM : Nat) (t : Nat → FlowSlot) : Nat → List Nat → Prop
  | p, [] => p = FM
  | p, i :: rest =>
    p = i ∧ i < FM ∧ (t i).ty = 0 ∧ 1 ≤ (t i).n ∧ i + (t i).n ≤ FM ∧
    i + (t i).n ≤ (t i).next ∧
    (∀ k, i < k → k < i + (t i).n → (t k).ty = 0 ∧ (t k).n = 0) ∧
    chainOK FM t ((t i).next) rest

/-- Slot `k` lies in one of the free clusters headed by `L`. -/
def inFree (t : Nat → FlowSlot) (L : List Nat) (k : Nat) : Prop :=
  ∃ i ∈ L, i ≤ k ∧ k < i + (t i).n

instance inFreeDecidable (t : Nat → FlowSlot) (L : List Nat) (k : Nat) :
    Decidable (inFree t L k) := by
  unfold inFree
  infer_instance

/-- The allocator invariant: the free chain is well formed and the free
slots are exactly those covered by its clusters. -/
def flowInv (FM : Nat) (s : FlowTable) : Prop :=
  ∃ L, chainOK FM s.tab s.ff L ∧
    ∀ k, k < FM → ((s.tab k).ty = 0 ↔ inFree s.tab L k)

/-- Total length of the free clusters. -/
def sumN (t : Nat → FlowSlot) (L : List Nat) : Nat :=
  (L.map (fun i => (t i).n)).sum

/-- Number of occupied (non-`FLOW_TYPE_NONE`) slots. -/
def occCount (FM : Nat) (t : Nat → FlowSlot) : Nat :=
  (List.range FM).countP (fun k => decide ((t k).ty ≠ 0))

theorem chain_heads_ge (FM : Nat) (t : Nat → FlowSlot) :
    ∀ (L : List Nat) (p : Nat), chainOK FM t p L → ∀ i ∈ L, p ≤ i
  | [], _, _, i, hi => absurd hi (List.not_mem_nil i)
  | a :: L, p, hc, i, hi => by
    obtain ⟨hp, _, _, hn, _, hnext, _, hrest⟩ := hc
    rcases List.mem_cons.mp hi with rfl | hiL
    · omega
    · have := chain_heads_ge FM t L ((t a).next) hrest i hiL
      omega

theorem chain_mem_props (FM : Nat) (t : Nat → FlowSlot) :
    ∀ (L : List Nat) (p : Nat), chainOK FM t p L → ∀ i ∈ L,
      (t i).ty = 0 ∧ 1 ≤ (t i).n ∧ i + (t i).n ≤ FM ∧ i < FM ∧
      (∀ k, i < k → k < i + (t i).n → (t k).ty = 0 ∧ (t k).n = 0)
  | [], _, _, i, hi => absurd hi (List.not_mem_nil i)
  | a :: L, p, hc, i, hi => by
    obtain ⟨hp, haFM, hty, hn, hb, hnext, hint, hrest⟩ := hc
    rcases List.mem_cons.mp hi with rfl | hiL
    · exact ⟨hty, hn, hb, haFM, hint⟩
    · exact chain_mem_props FM t L ((t a).next) hrest i hiL

theorem chain_disjoint (FM : Nat) (t : Nat → FlowSlot) :
    ∀ (L : List Nat) (p : Nat), chainOK FM t p L →
      ∀ a ∈ L, ∀ b ∈ L, a < b → a + (t a).n ≤ b
  | [], _, _, a, ha, _, _, _ => absurd ha (List.not_mem_nil a)
  | c :: L, p, hc, a, ha, b, hb, hab => by
    obtain ⟨hp, hcFM, hty, hn, hbound, hnext, hint, hrest⟩ := hc
    rcases List.mem_cons.mp ha with rfl | haL <;>
      rcases List.mem_cons.mp hb with heq | hbL
    · omega
    · have := chain_heads_ge FM t L ((t a).next) hrest b hbL
      omega
    · have := chain_heads_ge FM t L ((t c).next) hrest a haL
      omega
    · exact chain_disjoint FM t L ((t c).next) hrest a haL b hbL hab

theorem chain_sorted (FM : Nat) (t : Nat → FlowSlot) :
    ∀ (L : List Nat) (p : Nat), chainOK FM t p L → List.Chain' (· < ·) L
  | [], _, _ => List.chain'_nil
  | a :: L, p, hc => by
    obtain ⟨hp, _, _, hn, _, hnext, _, hrest⟩ := hc
    rw [List.chain'_cons']
    refine ⟨?_, chain_sorted FM t L ((t a).next) hrest⟩
    intro b hb
    have hble := chain_heads_ge FM t L ((t a).next) hrest b
      (List.mem_of_mem_head? hb)
    omega

theorem chain_head_inFree (FM : Nat) (t : Nat → FlowSlot) (L : List Nat)
    (p : Nat) (hc : chainOK FM t p L) : ∀ i ∈ L, inFree t L i := by
  intro i hi
  have h := chain_mem_props FM t L p hc i hi
  exact ⟨i, hi, le_refl i, by omega⟩

theorem inFree_congr (t t' : Nat → FlowSlot) (L : List Nat)
    (hh : ∀ i ∈ L, t' i = t i) (k : Nat) :
    inFree t' L k ↔ inFree t L k := by
  constructor
  · rintro ⟨i, hi, h1, h2⟩
    exact ⟨i, hi, h1, by rw [hh i hi] at h2; exact h2⟩
  · rintro ⟨i, hi, h1, h2⟩
    exact ⟨i, hi, h1, by rw [hh i hi]; exact h2⟩

theorem chainOK_congr (FM : Nat) (t t' : Nat → FlowSlot) :
    ∀ (L : List Nat) (p : Nat), chainOK FM t p L →
      (∀ k, inFree t L k → t' k = t k) → chainOK FM t' p L
  | [], p, hc, _ => hc
  | a :: L, p, hc, hagree => by
    obtain ⟨hp, haFM, hty, hn, hb, hnext, hint, hrest⟩ := hc
    have hta : t' a = t a :=
      hagree a ⟨a, List.mem_cons_self a L, le_refl a, by omega⟩
    refine ⟨hp, haFM, by rw [hta]; exact hty, by rw [hta]; exact hn,
      by rw [hta]; exact hb, by rw [hta]; exact hnext, ?_, ?_⟩
    · intro k hk1 hk2
      rw [hta] at hk2
      have htk : t' k = t k :=
        hagree k ⟨a, List.mem_cons_self a L, by omega, hk2⟩
      rw [htk]
      exact hint k hk1 hk2
    · rw [hta]
      exact chainOK_congr FM t t' L ((t a).next) hrest
        (fun k hk => hagree k (by
          obtain ⟨i, hi, h1, h2⟩ := hk
          exact ⟨i, List.mem_cons_of_mem a hi, h1, h2⟩))

theorem chain_count (FM : Nat) (t : Nat → FlowSlot) :
    ∀ (L : List Nat) (p lo : Nat), chainOK FM t p L →
      (∀ i ∈ L, lo ≤ i) → lo ≤ FM →
      (List.Ico lo FM).countP (fun k => decide (inFree t L k)) = sumN t L
  | [], p, lo, _, _, _ => by
    rw [List.countP_eq_zero.mpr, sumN]
    · simp
    · intro k _
      simp only [decide_eq_true_eq]
      rintro ⟨i, hi, _⟩
      exact absurd hi (List.not_mem_nil i)
  | a :: L, p, lo, hc, hlo, hloFM => by
    obtain ⟨hp, haFM, hty, hn, hb, hnext, hint, hrest⟩ := hc
    have hloa : lo ≤ a := hlo a (List.mem_cons_self a L)
    have hrestge : ∀ i ∈ L, (t a).next ≤ i :=
      chain_heads_ge FM t L ((t a).next) hrest
    rw [show List.Ico lo FM = List.Ico lo a ++ (List.Ico a (a + (t a).n) ++
        List.Ico (a + (t a).n) FM) from by
      rw [List.Ico.append_consecutive (by omega) (by omega),
        List.Ico.append_consecutive hloa (by omega)]]
    rw [List.countP_append, List.countP_append]
    have h1 : (List.Ico lo a).countP (fun k => decide (inFree t (a :: L) k))
        = 0 := by
      rw [List.countP_eq_zero]
      intro k hk
      have hka : k < a := (List.Ico.mem.mp hk).2
      simp only [decide_eq_true_eq]
      rintro ⟨i, hi, h1, h2⟩
      rcases List.mem_cons.mp hi with rfl | hiL
      · omega
      · have := hrestge i hiL
        omega
    have h2 : (List.Ico a (a + (t a).n)).countP
        (fun k => decide (inFree t (a :: L) k)) = (t a).n := by
      rw [List.countP_eq_length.mpr, List.Ico.length]
      · omega
      · intro k hk
        obtain ⟨hk1, hk2⟩ := List.Ico.mem.mp hk
        simp only [decide_eq_true_eq]
        exact ⟨a, List.mem_cons_self a L, hk1, hk2⟩
    have h3 : (List.Ico (a + (t a).n) FM).countP
        (fun k => decide (inFree t (a :: L) k)) = sumN t L := by
      rw [List.countP_congr, chain_count FM t L ((t a).next) (a + (t a).n)
        hrest (fun i hi => le_trans hnext (hrestge i hi)) (by omega)]
      intro k hk
      obtain ⟨hk1, _⟩ := List.Ico.mem.mp hk
      simp only [decide_eq_true_eq]
      constructor
      · rintro ⟨i, hi, h1, h2⟩
        rcases List.mem_cons.mp hi with rfl | hiL
        · omega
        · exact ⟨i, hiL, h1, h2⟩
      · rintro ⟨i, hi, h1, h2⟩
        exact ⟨i, List.mem_cons_of_mem a hi, h1, h2⟩
    rw [h1, h2, h3]
    unfold sumN
    rw [List.map_cons, List.sum_cons]
    omega

/-- Well-formedness of the yet-unscanned region `[idx, FM)`: walking from
`idx`, each position is either an occupied slot or a free-cluster head
(length ≥ 1, in bounds, zeroed interior) — the structure the
`flow_defer_handler()` scan relies on when it skips clusters. -/
inductive TailOK (FM : Nat) (t : Nat → FlowSlot) : Nat → Prop where
  | done (idx : Nat) (h : FM ≤ idx) : TailOK FM t idx
  | freeHead (idx : Nat) (h1 : idx < FM) (h2 : (t idx).ty = 0)
      (h3 : 1 ≤ (t idx).n) (h4 : idx + (t idx).n ≤ FM)
      (h5 : ∀ k, idx < k → k < idx + (t idx).n →
        (t k).ty = 0 ∧ (t k).n = 0)
      (h6 : TailOK FM t (idx + (t idx).n)) : TailOK FM t idx
  | occupied (idx : Nat) (h1 : idx < FM) (h2 : (t idx).ty ≠ 0)
      (h3 : TailOK FM t (idx + 1)) : TailOK FM t idx

theorem tailOK_congr (FM : Nat) (t t' : Nat → FlowSlot) (idx : Nat)
    (h : TailOK FM t idx) :
    (∀ k, idx ≤ k → k < FM → t' k = t k) → TailOK FM t' idx := by
  induction h with
  | done idx h => exact fun _ => .done idx h
  | freeHead idx h1 h2 h3 h4 h5 _ ih =>
    intro hagree
    have hidx : t' idx = t idx := hagree idx (le_refl _) h1
    refine .freeHead idx h1 (by rw [hidx]; exact h2) (by rw [hidx]; exact h3)
      (by rw [hidx]; exact h4) ?_ ?_
    · intro k hk1 hk2
      rw [hidx] at hk2
      rw [hagree k (by omega) (by omega)]
      exact h5 k hk1 hk2
    · rw [hidx]
      exact ih (fun k hk1 hk2 => hagree k (by omega) hk2)
  | occupied idx h1 h2 _ ih =>
    intro hagree
    have hidx : t' idx = t idx := hagree idx (le_refl _) h1
    exact .occupied idx h1 (by rw [hidx]; exact h2)
      (ih (fun k hk1 hk2 => hagree k (by omega) hk2))

theorem tailOK_of_inv (FM : Nat) (s : FlowTable) (L : List Nat)
    (hc : chainOK FM s.tab s.ff L)
    (hcov : ∀ k, k < FM → ((s.tab k).ty = 0 ↔ inFree s.tab L k)) :
    ∀ (d idx : Nat), FM ≤ idx + d →
      (∀ i ∈ L, ¬ (i < idx ∧ idx < i + (s.tab i).n)) →
      TailOK FM s.tab idx
  | 0, idx, hd, _ => .done idx (by omega)
  | d + 1, idx, hd, hmid => by
    by_cases hfm : FM ≤ idx
    · exact .done idx hfm
    · have hidxFM : idx < FM := by omega
      by_cases hty : (s.tab idx).ty = 0
      · obtain ⟨i, hi, h1, h2⟩ := (hcov idx hidxFM).mp hty
        have hieq : i = idx := by
          rcases Nat.lt_or_ge i idx with hlt | hge
          · exact absurd ⟨hlt, h2⟩ (hmid i hi)
          · omega
        subst hieq
        have hp := chain_mem_props FM s.tab L s.ff hc i hi
        refine .freeHead i hidxFM hty hp.2.1 hp.2.2.1 hp.2.2.2.2 ?_
        apply tailOK_of_inv FM s L hc hcov d (i + (s.tab i).n)
          (by omega)
        intro j hj hmid'
        obtain ⟨hj1, hj2⟩ := hmid'
        rcases Nat.lt_trichotomy j i with hlt | heq | hgt
        · have := chain_disjoint FM s.tab L s.ff hc j hj i hi hlt
          have hpj := chain_mem_props FM s.tab L s.ff hc j hj
          omega
        · subst heq
          omega
        · have := chain_disjoint FM s.tab L s.ff hc i hi j hj hgt
          omega
      · refine .occupied idx hidxFM hty ?_
        apply tailOK_of_inv FM s L hc hcov d (idx + 1) (by omega)
        intro j hj hmid'
        obtain ⟨hj1, hj2⟩ := hmid'
        have hpj := chain_mem_props FM s.tab L s.ff hc j hj
        rcases Nat.lt_or_ge j idx with hlt | hge
        · have : inFree s.tab L idx := ⟨j, hj, by omega, by omega⟩
          exact hty ((hcov idx hidxFM).mpr this)
        · have hje : j = idx := by omega
          subst hje
          exact hty hpj.1

theorem inv_count (FM : Nat) (s : FlowTable) (L : List Nat)
    (hc : chainOK FM s.tab s.ff L)
    (hcov : ∀ k, k < FM → ((s.tab k).ty = 0 ↔ inFree s.tab L k)) :
    sumN s.tab L + occCount FM s.tab = FM := by
  have h1 : (List.Ico 0 FM).countP (fun k => decide (inFree s.tab L k))
      = sumN s.tab L :=
    chain_count FM s.tab L s.ff 0 hc (fun i _ => Nat.zero_le i)
      (Nat.zero_le FM)
  have h2 : (List.range FM).countP (fun k => decide ((s.tab k).ty = 0))
      = sumN s.tab L := by
    rw [← h1, ← List.Ico.zero_bot]
    apply List.countP_congr
    intro k hk
    have hkFM : k < FM := (List.Ico.mem.mp hk).2
    simp only [decide_eq_true_eq]
    exact hcov k hkFM
  have h3 := List.length_eq_countP_add_countP
    (fun k => decide ((s.tab k).ty = 0)) (List.range FM)
  rw [List.length_range] at h3
  have h4 : (List.range FM).countP
      (fun a => decide ¬(decide ((s.tab a).ty = 0) = true))
      = occCount FM s.tab := by
    unfold occCount
    apply List.countP_congr
    intro k _
    simp
  omega

/-- Link between consecutive rebuilt cluster heads: the earlier head's
`free.next` points at the later one, past its own cluster. -/
def PLink (t : Nat → FlowSlot) (a b : Nat) : Prop :=
  (t a).next = b ∧ a + (t a).n ≤ b

theorem mem_of_getLast?' : ∀ (L : List Nat) (a : Nat),
    L.getLast? = some a → a ∈ L
  | [], _, h => by simp at h
  | [b], a, h => by
    simp only [List.getLast?_singleton, Option.some.injEq] at h
    rw [h]
    exact List.mem_singleton_self a
  | b :: c :: L, a, h => by
    rw [List.getLast?_cons_cons] at h
    exact List.mem_cons_of_mem b (mem_of_getLast?' (c :: L) a h)

theorem links_congr_last (t t' : Nat → FlowSlot) :
    ∀ (L : List Nat) (hl : Nat), L.getLast? = some hl →
      List.Pairwise (· < ·) L →
      (∀ i ∈ L, i ≠ hl → t' i = t i) →
      List.Chain' (PLink t) L → List.Chain' (PLink t') L
  | [], _, _, _, _, _ => List.chain'_nil
  | [a], _, _, _, _, _ => List.chain'_singleton a
  | a :: b :: L, hl, hlast, hsort, hsame, hch => by
    have hlast' : (b :: L).getLast? = some hl := by
      rwa [List.getLast?_cons_cons] at hlast
    have hmem : hl ∈ b :: L := mem_of_getLast?' (b :: L) hl hlast'
    have hane : a ≠ hl :=
      Nat.ne_of_lt ((List.pairwise_cons.mp hsort).1 hl hmem)
    rw [List.chain'_cons] at hch ⊢
    refine ⟨?_, links_congr_last t t' (b :: L) hl hlast'
      (List.pairwise_cons.mp hsort).2
      (fun i hi hine => hsame i (List.mem_cons_of_mem a hi) hine) hch.2⟩
    have hta : t' a = t a := hsame a (List.mem_cons_self a (b :: L)) hane
    unfold PLink
    rw [hta]
    exact hch.1

theorem inFree_congr_n (t t' : Nat → FlowSlot) (L : List Nat)
    (hh : ∀ i ∈ L, (t' i).n = (t i).n) (k : Nat) :
    inFree t' L k ↔ inFree t L k := by
  constructor
  · rintro ⟨i, hi, h1, h2⟩
    exact ⟨i, hi, h1, by rw [hh i hi] at h2; exact h2⟩
  · rintro ⟨i, hi, h1, h2⟩
    exact ⟨i, hi, h1, by rw [hh i hi]; exact h2⟩

theorem build_chain (FM : Nat) (t : Nat → FlowSlot) :
    ∀ (L : List Nat) (p : Nat),
      (∀ i ∈ L, (t i).ty = 0 ∧ 1 ≤ (t i).n ∧ i + (t i).n ≤ FM ∧ i < FM ∧
        (∀ k, i < k → k < i + (t i).n → (t k).ty = 0 ∧ (t k).n = 0)) →
      List.Chain' (PLink t) L →
      (L = [] → p = FM) →
      (∀ h0, L.head? = some h0 → p = h0) →
      (∀ hl, L.getLast? = some hl → (t hl).next = FM) →
      chainOK FM t p L
  | [], p, _, _, hnil, _, _ => hnil rfl
  | a :: L, p, hprops, hch, _, hhead, hlastFM => by
    have hp : p = a := hhead a rfl
    obtain ⟨hty, hn, hb, haFM, hint⟩ := hprops a (List.mem_cons_self a L)
    cases L with
    | nil =>
      have hnext : (t a).next = FM := hlastFM a rfl
      exact ⟨hp, haFM, hty, hn, hb, by rw [hnext]; exact hb, hint, hnext⟩
    | cons b L' =>
      rw [List.chain'_cons] at hch
      obtain ⟨⟨hab1, hab2⟩, hch'⟩ := hch
      refine ⟨hp, haFM, hty, hn, hb, by rw [hab1]; exact hab2, hint, ?_⟩
      rw [hab1]
      exact build_chain FM t (b :: L') b
        (fun i hi => hprops i (List.mem_cons_of_mem a hi)) hch'
        (fun h => absurd h (by simp))
        (fun h0 hh0 => Option.some.inj hh0)
        (fun hl hhl => hlastFM hl (by
          rw [List.getLast?_cons_cons]
          exact hhl))

/-- Loop invariant of the `flow_defer_handler()` scan at loop entry:
position `idx`, current free head `fh`, pending next-pointer `ln`, and
the list `Ld` of cluster heads already rebuilt, in ascending order. -/
structure ScanPre (FM : Nat) (s : FlowTable) (idx : Nat) (fh : Option Nat)
    (ln : LNext) (Ld : List Nat) : Prop where
  idxFM : idx ≤ FM
  props : ∀ i ∈ Ld, (s.tab i).ty = 0 ∧ 1 ≤ (s.tab i).n ∧
    i + (s.tab i).n ≤ idx ∧
    (∀ k, i < k → k < i + (s.tab i).n → (s.tab k).ty = 0 ∧ (s.tab k).n = 0)
  links : List.Chain' (PLink s.tab) Ld
  sorted : List.Pairwise (· < ·) Ld
  headff : ∀ h0, Ld.head? = some h0 → s.ff = h0
  lnok : (Ld = [] ∧ ln = .first) ∨
    (∃ hl, Ld.getLast? = some hl ∧ ln = .slot hl)
  fhok : ∀ h, fh = some h → Ld.getLast? = some h ∧ h + (s.tab h).n = idx
  cover : ∀ k, k < idx →
    ((s.tab k).ty = 0 ↔ ∃ i ∈ Ld, i ≤ k ∧ k < i + (s.tab i).n)

theorem scan_assemble (FM : Nat) (s : FlowTable) (fh : Option Nat)
    (ln : LNext) (Ld : List Nat) (hpre : ScanPre FM s FM fh ln Ld) :
    chainOK FM (writeLN s ln FM).tab (writeLN s ln FM).ff Ld ∧
    (∀ k, k < FM → (((writeLN s ln FM).tab k).ty = 0 ↔
      inFree (writeLN s ln FM).tab Ld k)) := by
  rcases hpre.lnok with ⟨hLd, hln⟩ | ⟨hl, hlast, hln⟩
  · subst hLd
    subst hln
    constructor
    · show chainOK FM s.tab FM []
      rfl
    · intro k hk
      exact hpre.cover k hk
  · subst hln
    have htyn : ∀ i,
        ((writeLN s (.slot hl) FM).tab i).ty = (s.tab i).ty ∧
        ((writeLN s (.slot hl) FM).tab i).n = (s.tab i).n := by
      intro i
      show ((Function.update s.tab hl { s.tab hl with next := FM }) i).ty
            = (s.tab i).ty ∧
          ((Function.update s.tab hl { s.tab hl with next := FM }) i).n
            = (s.tab i).n
      by_cases hi : i = hl
      · subst hi
        rw [Function.update_same]
        exact ⟨rfl, rfl⟩
      · rw [Function.update_noteq hi]
        exact ⟨rfl, rfl⟩
    have hprops' : ∀ i ∈ Ld,
        (((writeLN s (.slot hl) FM).tab i).ty = 0 ∧
         1 ≤ ((writeLN s (.slot hl) FM).tab i).n ∧
         i + ((writeLN s (.slot hl) FM).tab i).n ≤ FM ∧ i < FM ∧
         (∀ k, i < k → k < i + ((writeLN s (.slot hl) FM).tab i).n →
           ((writeLN s (.slot hl) FM).tab k).ty = 0 ∧
           ((writeLN s (.slot hl) FM).tab k).n = 0)) := by
      intro i hi
      obtain ⟨h1, h2, h3, h4⟩ := hpre.props i hi
      rw [(htyn i).1, (htyn i).2]
      refine ⟨h1, h2, h3, by omega, ?_⟩
      intro k hk1 hk2
      rw [(htyn k).1, (htyn k).2]
      exact h4 k hk1 hk2
    have hlinks' : List.Chain' (PLink (writeLN s (.slot hl) FM).tab) Ld := by
      apply links_congr_last s.tab _ Ld hl hlast hpre.sorted _ hpre.links
      intro i _ hine
      show (Function.update s.tab hl { s.tab hl with next := FM }) i = _
      rw [Function.update_noteq hine]
    have hffsame : (writeLN s (.slot hl) FM).ff = s.ff := rfl
    constructor
    · apply build_chain
      · exact hprops'
      · exact hlinks'
      · intro h
        rw [h] at hlast
        simp at hlast
      · intro h0 hh0
        rw [hffsame]
        exact hpre.headff h0 hh0
      · intro hl' hhl'
        have : hl' = hl := Option.some.inj (hhl' ▸ hlast)
        subst this
        show ((Function.update s.tab hl'
          { s.tab hl' with next := FM }) hl').next = FM
        rw [Function.update_same]
    · intro k hk
      rw [(htyn k).1,
        inFree_congr_n s.tab _ Ld (fun i _ => (htyn i).2) k]
      exact hpre.cover k hk

theorem links_congr_mem (t t' : Nat → FlowSlot) :
    ∀ (L : List Nat), (∀ i ∈ L, t' i = t i) →
      List.Chain' (PLink t) L → List.Chain' (PLink t') L
  | [], _, _ => List.chain'_nil
  | [a], _, _ => List.chain'_singleton a
  | a :: b :: L, hsame, hch => by
    rw [List.chain'_cons] at hch ⊢
    refine ⟨?_, links_congr_mem t t' (b :: L)
      (fun i hi => hsame i (List.mem_cons_of_mem a hi)) hch.2⟩
    unfold PLink
    rw [hsame a (List.mem_cons_self a (b :: L))]
    exact hch.1

theorem scanPre_heads_lt (FM : Nat) (s : FlowTable) (idx : Nat)
    (fh : Option Nat) (ln : LNext) (Ld : List Nat)
    (hpre : ScanPre FM s idx fh ln Ld) : ∀ i ∈ Ld, i < idx := by
  intro i hi
  obtain ⟨_, h2, h3, _⟩ := hpre.props i hi
  omega

/-- Transport of the scan invariant across the cluster-merge write
(`free_head->n += m; flow->free.n = flow->free.next = 0`), used both for
absorbing a following free cluster (`m = fl.n`) and for absorbing a
just-closed slot (`m = 1`). -/
theorem scanPre_merge (FM : Nat) (s : FlowTable) (idx h : Nat) (ln : LNext)
    (Ld : List Nat) (m : Nat) (hpre : ScanPre FM s idx (some h) ln Ld)
    (hm : 1 ≤ m) (hbound : idx + m ≤ FM)
    (hints : ∀ k, idx < k → k < idx + m →
      (s.tab k).ty = 0 ∧ (s.tab k).n = 0) :
    ScanPre FM
      { s with tab := (Function.update
          (Function.update s.tab h { s.tab h with n := (s.tab h).n + m })
          idx ⟨0, 0, 0⟩) }
      (idx + m) (some h) ln Ld := by
  obtain ⟨hlast, hhn⟩ := hpre.fhok h rfl
  have hhmem : h ∈ Ld := mem_of_getLast?' Ld h hlast
  obtain ⟨hhty, hhn1, hhspan, hhint⟩ := hpre.props h hhmem
  have hhlt : h < idx := by omega
  have hneidx : ∀ i ∈ Ld, i ≠ idx := by
    intro i hi
    have := scanPre_heads_lt FM s idx (some h) ln Ld hpre i hi
    omega
  set t' := Function.update
    (Function.update s.tab h { s.tab h with n := (s.tab h).n + m })
    idx ⟨0, 0, 0⟩ with htdef
  have ht'idx : t' idx = ⟨0, 0, 0⟩ := Function.update_same idx _ _
  have ht'h : t' h = { s.tab h with n := (s.tab h).n + m } := by
    rw [htdef, Function.update_noteq (by omega : h ≠ idx),
      Function.update_same]
  have ht'k : ∀ k, k ≠ idx → k ≠ h → t' k = s.tab k := by
    intro k h1 h2
    rw [htdef, Function.update_noteq h1, Function.update_noteq h2]
  have htyk : ∀ k, k ≠ idx → (t' k).ty = (s.tab k).ty := by
    intro k h1
    by_cases h2 : k = h
    · subst h2
      rw [ht'h]
    · rw [ht'k k h1 h2]
  have hnk : ∀ k, k ≠ idx → k ≠ h → (t' k).n = (s.tab k).n := by
    intro k h1 h2
    rw [ht'k k h1 h2]
  refine ⟨hbound, ?_, ?_, hpre.sorted, hpre.headff, hpre.lnok, ?_, ?_⟩
  · -- props
    dsimp only
    intro i hi
    by_cases hih : i = h
    · rw [hih, ht'h]
      refine ⟨hhty, by show 1 ≤ (s.tab h).n + m; omega,
        by show h + ((s.tab h).n + m) ≤ idx + m; omega, ?_⟩
      intro k hk1 hk2
      have hk2' : k < h + ((s.tab h).n + m) := hk2
      by_cases hkidx : k = idx
      · rw [hkidx, ht'idx]
        exact ⟨rfl, rfl⟩
      · have hkne : k ≠ h := by omega
        rw [ht'k k hkidx hkne]
        rcases Nat.lt_or_ge k idx with hlt | hge
        · exact hhint k hk1 (by omega)
        · exact hints k (by omega) (by omega)
    · have hiidx : i ≠ idx := hneidx i hi
      obtain ⟨h1, h2, h3, h4⟩ := hpre.props i hi
      rw [ht'k i hiidx hih]
      refine ⟨h1, h2, by omega, ?_⟩
      intro k hk1 hk2
      have hkidx : k ≠ idx := by omega
      have hkh : k ≠ h := by
        intro he
        have := (h4 k hk1 hk2).2
        rw [he] at this
        omega
      rw [ht'k k hkidx hkh]
      exact h4 k hk1 hk2
  · -- links
    dsimp only
    apply links_congr_last s.tab t' Ld h hlast hpre.sorted _ hpre.links
    intro i hi hine
    exact ht'k i (hneidx i hi) hine
  · -- fhok
    dsimp only
    intro h' hh'
    have hh'h : h' = h := (Option.some.inj hh').symm
    rw [hh'h, ht'h]
    refine ⟨hlast, ?_⟩
    show h + ((s.tab h).n + m) = idx + m
    omega
  · -- cover
    dsimp only
    intro k hk
    rcases Nat.lt_or_ge k idx with hklt | hkge
    · have hkidx : k ≠ idx := by omega
      rw [htyk k hkidx, hpre.cover k hklt]
      constructor
      · rintro ⟨i, hi, h1, h2⟩
        by_cases hih : i = h
        · refine ⟨i, hi, h1, ?_⟩
          rw [hih, ht'h]
          rw [hih] at h2
          show k < h + ((s.tab h).n + m)
          omega
        · exact ⟨i, hi, h1, by rw [ht'k i (hneidx i hi) hih]; exact h2⟩
      · rintro ⟨i, hi, h1, h2⟩
        by_cases hih : i = h
        · refine ⟨i, hi, h1, ?_⟩
          rw [hih] at h1 h2 ⊢
          rw [ht'h] at h2
          have h2' : k < h + ((s.tab h).n + m) := h2
          omega
        · rw [ht'k i (hneidx i hi) hih] at h2
          exact ⟨i, hi, h1, h2⟩
    · have hty0 : (t' k).ty = 0 := by
        by_cases hkidx : k = idx
        · rw [hkidx, ht'idx]
        · have hkh : k ≠ h := by omega
          rw [ht'k k hkidx hkh]
          exact (hints k (by omega) (by omega)).1
      constructor
      · intro _
        refine ⟨h, hhmem, by omega, ?_⟩
        rw [ht'h]
        show k < h + ((s.tab h).n + m)
        omega
      · intro _
        exact hty0

/-- Transport of the scan invariant across an occupied slot that stays
(`free_head = NULL`). -/
theorem scanPre_skip_occupied (FM : Nat) (s : FlowTable) (idx : Nat)
    (fh : Option Nat) (ln : LNext) (Ld : List Nat)
    (hpre : ScanPre FM s idx fh ln Ld) (hidx : idx < FM)
    (hty : (s.tab idx).ty ≠ 0) :
    ScanPre FM s (idx + 1) none ln Ld := by
  refine ⟨by omega, ?_, hpre.links, hpre.sorted, hpre.headff, hpre.lnok,
    ?_, ?_⟩
  · intro i hi
    obtain ⟨h1, h2, h3, h4⟩ := hpre.props i hi
    exact ⟨h1, h2, by omega, h4⟩
  · intro h hh
    exact Option.noConfusion hh
  · intro k hk
    rcases Nat.lt_or_ge k idx with hklt | hkge
    · exact hpre.cover k hklt
    · have hkidx : k = idx := by omega
      subst hkidx
      constructor
      · intro h0
        exact absurd h0 hty
      · rintro ⟨i, hi, h1, h2⟩
        obtain ⟨_, _, h3, _⟩ := hpre.props i hi
        omega

/-- Transport of the scan invariant across `flow_end()` plus
`free_head->n = 1` on a just-closed slot (before the `*last_next`
write). -/
theorem scanPre_set_closed (FM : Nat) (s : FlowTable) (idx : Nat)
    (ln : LNext) (Ld : List Nat) (hpre : ScanPre FM s idx none ln Ld) :
    ScanPre FM
      { s with tab := (Function.update s.tab idx ⟨0, 1, (s.tab idx).next⟩) }
      idx none ln Ld := by
  have hneidx : ∀ i ∈ Ld, i ≠ idx := fun i hi => by
    have := scanPre_heads_lt FM s idx none ln Ld hpre i hi
    omega
  set t' := Function.update s.tab idx ⟨0, 1, (s.tab idx).next⟩ with htdef
  have ht'k : ∀ k, k ≠ idx → t' k = s.tab k := fun k h1 => by
    rw [htdef, Function.update_noteq h1]
  refine ⟨hpre.idxFM, ?_, ?_, hpre.sorted, hpre.headff, hpre.lnok, ?_, ?_⟩
  · dsimp only
    intro i hi
    obtain ⟨h1, h2, h3, h4⟩ := hpre.props i hi
    rw [ht'k i (hneidx i hi)]
    refine ⟨h1, h2, h3, ?_⟩
    intro k hk1 hk2
    rw [ht'k k (by omega)]
    exact h4 k hk1 hk2
  · dsimp only
    exact links_congr_mem s.tab t' Ld (fun i hi => ht'k i (hneidx i hi))
      hpre.links
  · intro h hh
    exact Option.noConfusion hh
  · dsimp only
    intro k hk
    rw [ht'k k (by omega), hpre.cover k hk]
    constructor
    · rintro ⟨i, hi, h1, h2⟩
      exact ⟨i, hi, h1, by rw [ht'k i (hneidx i hi)]; exact h2⟩
    · rintro ⟨i, hi, h1, h2⟩
      rw [ht'k i (hneidx i hi)] at h2
      exact ⟨i, hi, h1, h2⟩

/-- Transport of the scan invariant across the creation of a new cluster
at `idx` (`*last_next = idx; last_next = &flow->free.next;
free_head = &flow->free`), for a cluster of length `(s.tab idx).n`
already stored in the slot. -/
theorem scanPre_append (FM : Nat) (s : FlowTable) (idx : Nat) (ln : LNext)
    (Ld : List Nat) (hpre : ScanPre FM s idx none ln Ld)
    (hty : (s.tab idx).ty = 0) (hn : 1 ≤ (s.tab idx).n)
    (hbound : idx + (s.tab idx).n ≤ FM)
    (hints : ∀ k, idx < k → k < idx + (s.tab idx).n →
      (s.tab k).ty = 0 ∧ (s.tab k).n = 0) :
    ScanPre FM (writeLN s ln idx) (idx + (s.tab idx).n) (some idx)
      (.slot idx) (Ld ++ [idx]) := by
  have hheads := scanPre_heads_lt FM s idx none ln Ld hpre
  rcases hpre.lnok with ⟨hLd, hln⟩ | ⟨hl, hlast, hln⟩
  · subst hLd
    subst hln
    refine ⟨hbound, ?_, ?_, ?_, ?_, ?_, ?_, ?_⟩
    · intro i hi
      rcases List.mem_singleton.mp (by simpa using hi) with rfl
      exact ⟨hty, hn, le_refl _, hints⟩
    · show List.Chain' (PLink s.tab) [idx]
      exact List.chain'_singleton idx
    · show List.Pairwise (· < ·) [idx]
      exact List.pairwise_singleton _ idx
    · intro h0 hh0
      have : h0 = idx := by simpa using hh0.symm
      rw [this]
      rfl
    · exact Or.inr ⟨idx, by simp, rfl⟩
    · intro h hh
      have : h = idx := (Option.some.inj hh).symm
      subst this
      exact ⟨by simp, rfl⟩
    · intro k hk
      show (s.tab k).ty = 0 ↔ _
      rcases Nat.lt_or_ge k idx with hklt | hkge
      · rw [hpre.cover k hklt]
        constructor
        · rintro ⟨i, hi, _⟩
          exact absurd hi (List.not_mem_nil i)
        · rintro ⟨i, hi, h1, h2⟩
          rcases List.mem_singleton.mp (by simpa using hi) with rfl
          omega
      · constructor
        · intro _
          exact ⟨idx, by simp, hkge, hk⟩
        · intro _
          rcases Nat.eq_or_lt_of_le hkge with heq | hlt
          · rw [← heq]
            exact hty
          · exact (hints k hlt hk).1
  · subst hln
    have hlmem : hl ∈ Ld := mem_of_getLast?' Ld hl hlast
    have hlidx : hl < idx := hheads hl hlmem
    set t' := Function.update s.tab hl { s.tab hl with next := idx }
      with htdef
    have ht'k : ∀ k, k ≠ hl → t' k = s.tab k := fun k h1 => by
      rw [htdef, Function.update_noteq h1]
    have htyn : ∀ k, (t' k).ty = (s.tab k).ty ∧ (t' k).n = (s.tab k).n := by
      intro k
      by_cases hk : k = hl
      · rw [hk, htdef, Function.update_same]
        exact ⟨rfl, rfl⟩
      · rw [ht'k k hk]
        exact ⟨rfl, rfl⟩
    have hwl : writeLN s (.slot hl) idx = { s with tab := t' } := rfl
    rw [hwl]
    refine ⟨hbound, ?_, ?_, ?_, ?_, ?_, ?_, ?_⟩
    · dsimp only
      intro i hi
      rcases List.mem_append.mp hi with hiL | hione
      · obtain ⟨h1, h2, h3, h4⟩ := hpre.props i hiL
        rw [(htyn i).1, (htyn i).2]
        refine ⟨h1, h2, by omega, ?_⟩
        intro k hk1 hk2
        rw [(htyn k).1, (htyn k).2]
        exact h4 k hk1 hk2
      · rcases List.mem_singleton.mp hione with rfl
        rw [(htyn i).1, (htyn i).2]
        refine ⟨hty, hn, le_refl _, ?_⟩
        intro k hk1 hk2
        rw [(htyn k).1, (htyn k).2]
        exact hints k hk1 hk2
    · dsimp only
      rw [List.chain'_append]
      refine ⟨links_congr_last s.tab t' Ld hl hlast hpre.sorted
        (fun i _ hine => ht'k i hine) hpre.links,
        List.chain'_singleton idx, ?_⟩
      intro x hx y hy
      have hxl : x = hl := by rw [hlast] at hx; exact (by simpa using hx : hl = x).symm
      have hyi : y = idx := by simpa using hy.symm
      subst hxl
      subst hyi
      constructor
      · show (t' x).next = y
        rw [htdef, Function.update_same]
      · show x + (t' x).n ≤ y
        rw [(htyn x).2]
        have := (hpre.props x hlmem).2.2.1
        omega
    · rw [List.pairwise_append]
      refine ⟨hpre.sorted, List.pairwise_singleton _ idx, ?_⟩
      intro a ha b hb
      rcases List.mem_singleton.mp hb with rfl
      exact hheads a ha
    · intro h0 hh0
      cases Ld with
      | nil => simp at hlast
      | cons a rest =>
        have : h0 = a := by
          rw [List.cons_append] at hh0
          simpa using hh0.symm
        rw [this]
        show s.ff = a
        exact hpre.headff a rfl
    · exact Or.inr ⟨idx, List.getLast?_concat Ld, rfl⟩
    · intro h hh
      have : h = idx := (Option.some.inj hh).symm
      subst this
      refine ⟨List.getLast?_concat Ld, ?_⟩
      dsimp only
      rw [(htyn h).2]
    · dsimp only
      intro k hk
      rw [(htyn k).1]
      rcases Nat.lt_or_ge k idx with hklt | hkge
      · rw [hpre.cover k hklt]
        constructor
        · rintro ⟨i, hi, h1, h2⟩
          exact ⟨i, List.mem_append_left _ hi, h1,
            by rw [(htyn i).2]; exact h2⟩
        · rintro ⟨i, hi, h1, h2⟩
          rcases List.mem_append.mp hi with hiL | hione
          · rw [(htyn i).2] at h2
            exact ⟨i, hiL, h1, h2⟩
          · rcases List.mem_singleton.mp hione with rfl
            omega
      · constructor
        · intro _
          exact ⟨idx, List.mem_append_right _ (by simp), hkge,
            by rw [(htyn idx).2]; exact hk⟩
        · intro _
          rcases Nat.eq_or_lt_of_le hkge with heq | hlt
          · rw [← heq]
            exact hty
          · exact (hints k hlt hk).1

/-- The state `flow_defer_handler()` leaves behind when its scan starts
from an arbitrary intermediate configuration: run the remaining loop and
terminate the chain with `*last_next = FLOW_MAX`. -/
def scanResult (FM : Nat) (closes : Nat → Bool) (fuel idx : Nat)
    (s : FlowTable) (fh : Option Nat) (ln : LNext) : FlowTable :=
  writeLN (flow_defer_scan FM closes fuel idx s fh ln).1
    (flow_defer_scan FM closes fuel idx s fh ln).2 FM

theorem flow_defer_scan_stop (FM : Nat) (closes : Nat → Bool)
    (fuel idx : Nat) (s : FlowTable) (fh : Option Nat) (ln : LNext)
    (h : ¬ idx < FM) :
    flow_defer_scan FM closes fuel idx s fh ln = (s, ln) := by
  cases fuel with
  | zero => rfl
  | succ fuel =>
    rw [flow_defer_scan.eq_def]
    dsimp only
    rw [if_neg h]

theorem flow_defer_scan_merge (FM : Nat) (closes : Nat → Bool)
    (fuel idx h : Nat) (s : FlowTable) (ln : LNext)
    (hidx : idx < FM) (hty : (s.tab idx).ty = 0) :
    flow_defer_scan FM closes (fuel + 1) idx s (some h) ln =
      flow_defer_scan FM closes fuel (idx + (s.tab idx).n)
        { s with tab := (Function.update
            (Function.update s.tab h
              { s.tab h with n := (s.tab h).n + (s.tab idx).n })
            idx ⟨0, 0, 0⟩) }
        (some h) ln := by
  rw [flow_defer_scan]
  rw [if_pos hidx]
  dsimp only
  rw [if_pos hty]

theorem flow_defer_scan_new (FM : Nat) (closes : Nat → Bool)
    (fuel idx : Nat) (s : FlowTable) (ln : LNext)
    (hidx : idx < FM) (hty : (s.tab idx).ty = 0) :
    flow_defer_scan FM closes (fuel + 1) idx s none ln =
      flow_defer_scan FM closes fuel (idx + (s.tab idx).n)
        (writeLN s ln idx) (some idx) (.slot idx) := by
  rw [flow_defer_scan]
  rw [if_pos hidx]
  dsimp only
  rw [if_pos hty]

theorem flow_defer_scan_close_some (FM : Nat) (closes : Nat → Bool)
    (fuel idx h : Nat) (s : FlowTable) (ln : LNext)
    (hidx : idx < FM) (hty : (s.tab idx).ty ≠ 0)
    (hcl : closes idx = true) :
    flow_defer_scan FM closes (fuel + 1) idx s (some h) ln =
      flow_defer_scan FM closes fuel (idx + 1)
        { s with tab := (Function.update
            (Function.update s.tab h
              { s.tab h with n := (s.tab h).n + 1 })
            idx ⟨0, 0, 0⟩) }
        (some h) ln := by
  rw [flow_defer_scan]
  rw [if_pos hidx]
  dsimp only
  rw [if_neg hty, if_pos hcl]

theorem flow_defer_scan_close_none (FM : Nat) (closes : Nat → Bool)
    (fuel idx : Nat) (s : FlowTable) (ln : LNext)
    (hidx : idx < FM) (hty : (s.tab idx).ty ≠ 0)
    (hcl : closes idx = true) :
    flow_defer_scan FM closes (fuel + 1) idx s none ln =
      flow_defer_scan FM closes fuel (idx + 1)
        (writeLN
          { s with tab := (Function.update s.tab idx
              ⟨0, 1, (s.tab idx).next⟩) }
          ln idx)
        (some idx) (.slot idx) := by
  rw [flow_defer_scan]
  rw [if_pos hidx]
  dsimp only
  rw [if_neg hty, if_pos hcl]

theorem flow_defer_scan_skip (FM : Nat) (closes : Nat → Bool)
    (fuel idx : Nat) (s : FlowTable) (fh : Option Nat) (ln : LNext)
    (hidx : idx < FM) (hty : (s.tab idx).ty ≠ 0)
    (hcl : closes idx = false) :
    flow_defer_scan FM closes (fuel + 1) idx s fh ln =
      flow_defer_scan FM closes fuel (idx + 1) s none ln := by
  rw [flow_defer_scan.eq_def]
  dsimp only
  rw [if_pos hidx]
  rw [if_neg hty, if_neg (by rw [hcl]; decide : ¬ closes idx = true)]

theorem writeLN_tab_high (FM : Nat) (s : FlowTable) (idx : Nat)
    (fh : Option Nat) (ln : LNext) (Ld : List Nat)
    (hpre : ScanPre FM s idx fh ln Ld) (v : Nat) :
    ∀ k, idx ≤ k → (writeLN s ln v).tab k = s.tab k := by
  intro k hk
  rcases hpre.lnok with ⟨_, rfl⟩ | ⟨hl, hlast, rfl⟩
  · rfl
  · have hlmem : hl ∈ Ld := mem_of_getLast?' Ld hl hlast
    have hllt : hl < idx :=
      scanPre_heads_lt FM s idx fh (.slot hl) Ld hpre hl hlmem
    show (Function.update s.tab hl { s.tab hl with next := v }) k = s.tab k
    rw [Function.update_noteq (by omega : k ≠ hl)]

theorem scan_ok (FM : Nat) (closes : Nat → Bool) :
    ∀ (fuel idx : Nat) (s : FlowTable) (fh : Option Nat) (ln : LNext)
      (Ld : List Nat), FM - idx ≤ fuel → TailOK FM s.tab idx →
      ScanPre FM s idx fh ln Ld →
      flowInv FM (scanResult FM closes fuel idx s fh ln)
  | 0, idx, s, fh, ln, Ld, hfuel, _, hpre => by
    have heq : idx = FM := le_antisymm hpre.idxFM (by omega)
    obtain ⟨c1, c2⟩ := scan_assemble FM s fh ln Ld (heq ▸ hpre)
    exact ⟨Ld, c1, c2⟩
  | fuel + 1, idx, s, fh, ln, Ld, hfuel, htail, hpre => by
    by_cases hidx : idx < FM
    · cases htail with
      | done _ hge => omega
      | freeHead _ h1 h2 h3 h4 h5 h6 =>
        cases fh with
        | some h =>
          have hsc := flow_defer_scan_merge FM closes fuel idx h s ln hidx h2
          obtain ⟨hlast, hhn⟩ := hpre.fhok h rfl
          have hhmem : h ∈ Ld := mem_of_getLast?' Ld h hlast
          have hhn1 := (hpre.props h hhmem).2.1
          have hhlt : h < idx := by omega
          have hpre' := scanPre_merge FM s idx h ln Ld ((s.tab idx).n)
            hpre h3 h4 h5
          have htail' : TailOK FM
              (Function.update
                (Function.update s.tab h
                  { s.tab h with n := (s.tab h).n + (s.tab idx).n })
                idx ⟨0, 0, 0⟩) (idx + (s.tab idx).n) := by
            apply tailOK_congr FM s.tab _ _ h6
            intro k hk1 hk2
            rw [Function.update_noteq (by omega : k ≠ idx),
              Function.update_noteq (by omega : k ≠ h)]
          unfold scanResult
          rw [hsc]
          exact scan_ok FM closes fuel (idx + (s.tab idx).n) _ (some h) ln
            Ld (by omega) htail' hpre'
        | none =>
          have hsc := flow_defer_scan_new FM closes fuel idx s ln hidx h2
          have hpre' := scanPre_append FM s idx ln Ld hpre h2 h3 h4 h5
          have htail' : TailOK FM (writeLN s ln idx).tab
              (idx + (s.tab idx).n) := by
            apply tailOK_congr FM s.tab _ _ h6
            intro k hk1 _
            exact writeLN_tab_high FM s idx none ln Ld hpre idx k (by omega)
          unfold scanResult
          rw [hsc]
          exact scan_ok FM closes fuel (idx + (s.tab idx).n) _ (some idx)
            (.slot idx) (Ld ++ [idx]) (by omega) htail' hpre'
      | occupied _ h1 h2 h3 =>
        cases hcv : closes idx with
        | true =>
          cases fh with
          | some h =>
            have hsc := flow_defer_scan_close_some FM closes fuel idx h s ln
              hidx h2 hcv
            obtain ⟨hlast, hhn⟩ := hpre.fhok h rfl
            have hhmem : h ∈ Ld := mem_of_getLast?' Ld h hlast
            have hhn1 := (hpre.props h hhmem).2.1
            have hhlt : h < idx := by omega
            have hpre' := scanPre_merge FM s idx h ln Ld 1 hpre
              (le_refl 1) (by omega)
              (fun k hk1 hk2 => absurd hk2 (by omega))
            have htail' : TailOK FM
                (Function.update
                  (Function.update s.tab h
                    { s.tab h with n := (s.tab h).n + 1 })
                  idx ⟨0, 0, 0⟩) (idx + 1) := by
              apply tailOK_congr FM s.tab _ _ h3
              intro k hk1 hk2
              rw [Function.update_noteq (by omega : k ≠ idx),
                Function.update_noteq (by omega : k ≠ h)]
            unfold scanResult
            rw [hsc]
            exact scan_ok FM closes fuel (idx + 1) _ (some h) ln Ld
              (by omega) htail' hpre'
          | none =>
            have hsc := flow_defer_scan_close_none FM closes fuel idx s ln
              hidx h2 hcv
            have hpre₁ := scanPre_set_closed FM s idx ln Ld hpre
            have hupd : (Function.update s.tab idx
                ⟨0, 1, (s.tab idx).next⟩) idx = ⟨0, 1, (s.tab idx).next⟩ :=
              Function.update_same idx _ s.tab
            have hty1 : ((Function.update s.tab idx
                ⟨0, 1, (s.tab idx).next⟩) idx).ty = 0 := by rw [hupd]
            have hn1 : ((Function.update s.tab idx
                ⟨0, 1, (s.tab idx).next⟩) idx).n = 1 := by rw [hupd]
            have hpre' := scanPre_append FM
              { s with tab := (Function.update s.tab idx
                  ⟨0, 1, (s.tab idx).next⟩) }
              idx ln Ld hpre₁ hty1 (by dsimp only; omega)
              (by dsimp only; omega)
              (fun k hk1 hk2 => absurd hk2 (by dsimp only; omega))
            rw [hn1] at hpre'
            have htail' : TailOK FM
                (writeLN { s with tab := (Function.update s.tab idx
                    ⟨0, 1, (s.tab idx).next⟩) } ln idx).tab (idx + 1) := by
              apply tailOK_congr FM s.tab _ _ h3
              intro k hk1 _
              rw [writeLN_tab_high FM _ idx none ln Ld hpre₁ idx k
                (by omega)]
              show (Function.update s.tab idx
                ⟨0, 1, (s.tab idx).next⟩) k = s.tab k
              rw [Function.update_noteq (by omega : k ≠ idx)]
            unfold scanResult
            rw [hsc]
            exact scan_ok FM closes fuel (idx + 1) _ (some idx) (.slot idx)
              (Ld ++ [idx]) (by omega) htail' hpre'
        | false =>
          have hsc := flow_defer_scan_skip FM closes fuel idx s fh ln
            hidx h2 hcv
          have hpre' := scanPre_skip_occupied FM s idx fh ln Ld hpre hidx h2
          unfold scanResult
          rw [hsc]
          exact scan_ok FM closes fuel (idx + 1) s none ln Ld (by omega)
            h3 hpre'
    · have heq : idx = FM := le_antisymm hpre.idxFM (by omega)
      have hsc := flow_defer_scan_stop FM closes (fuel + 1) idx s fh ln hidx
      unfold scanResult
      rw [hsc]
      obtain ⟨c1, c2⟩ := scan_assemble FM s fh ln Ld (heq ▸ hpre)
      exact ⟨Ld, c1, c2⟩

theorem flowInv_init (FM : Nat) : flowInv FM (flow_init FM) := by
  rcases Nat.eq_zero_or_pos FM with hFM | hFM
  · refine ⟨[], ?_, ?_⟩
    · show (0 : Nat) = FM
      omega
    · intro k hk
      omega
  · refine ⟨[0], ⟨rfl, hFM, rfl, hFM, (by show 0 + FM ≤ FM; omega),
      (by show 0 + FM ≤ FM; omega), ?_, rfl⟩, ?_⟩
    · intro k hk1 hk2
      show (if k = 0 then (⟨0, FM, FM⟩ : FlowSlot) else ⟨0, 0, 0⟩).ty = 0 ∧
        (if k = 0 then (⟨0, FM, FM⟩ : FlowSlot) else ⟨0, 0, 0⟩).n = 0
      rw [if_neg (by omega : ¬ k = 0)]
      exact ⟨rfl, rfl⟩
    · intro k hk
      constructor
      · intro _
        exact ⟨0, List.mem_singleton_self 0, Nat.zero_le k,
          (by show k < 0 + FM; omega)⟩
      · intro _
        show (if k = 0 then (⟨0, FM, FM⟩ : FlowSlot) else ⟨0, 0, 0⟩).ty = 0
        by_cases hk0 : k = 0
        · rw [if_pos hk0]
        · rw [if_neg hk0]

theorem flowInv_alloc (FM : Nat) (s : FlowTable) (h : flowInv FM s) :
    flowInv FM (flowStep FM s .alloc) := by
  obtain ⟨L, hc, hcov⟩ := h
  by_cases hff : s.ff ≥ FM
  · have halloc : flow_alloc FM s = none := by
      unfold flow_alloc
      rw [if_pos hff]
    have hstep : flowStep FM s .alloc = s := by
      show (match flow_alloc FM s with
        | none => s
        | some (s', _) => s') = s
      rw [halloc]
    rw [hstep]
    exact ⟨L, hc, hcov⟩
  · cases L with
    | nil =>
      have : s.ff = FM := hc
      omega
    | cons a rest =>
      obtain ⟨hp, haFM, hty, hn, hb, hnext, hint, hrest⟩ := hc
      subst hp
      have hrestge : ∀ i ∈ rest, (s.tab s.ff).next ≤ i :=
        chain_heads_ge FM s.tab rest ((s.tab s.ff).next) hrest
      by_cases hn1 : (s.tab s.ff).n > 1
      · -- long cluster: the next slot becomes the shorter head
        have halloc : flow_alloc FM s = some
            ({ tab := Function.update (Function.update s.tab s.ff ⟨1, 0, 0⟩)
                  (s.ff + 1)
                  ⟨0, (s.tab s.ff).n - 1, (s.tab s.ff).next⟩,
               ff := s.ff + 1 }, s.ff) := by
          unfold flow_alloc
          rw [if_neg hff]
          dsimp only
          rw [if_pos hn1]
        have hstep : flowStep FM s .alloc =
            { tab := Function.update (Function.update s.tab s.ff ⟨1, 0, 0⟩)
                  (s.ff + 1)
                  ⟨0, (s.tab s.ff).n - 1, (s.tab s.ff).next⟩,
              ff := s.ff + 1 } := by
          show (match flow_alloc FM s with
            | none => s
            | some (s', _) => s') = _
          rw [halloc]
        rw [hstep]
        set t' := Function.update (Function.update s.tab s.ff ⟨1, 0, 0⟩)
          (s.ff + 1) ⟨0, (s.tab s.ff).n - 1, (s.tab s.ff).next⟩ with htdef
        have ht'ff1 : t' (s.ff + 1) =
            ⟨0, (s.tab s.ff).n - 1, (s.tab s.ff).next⟩ :=
          Function.update_same _ _ _
        have ht'ff : t' s.ff = ⟨1, 0, 0⟩ := by
          rw [htdef, Function.update_noteq (by omega : s.ff ≠ s.ff + 1),
            Function.update_same]
        have ht'k : ∀ k, k ≠ s.ff → k ≠ s.ff + 1 → t' k = s.tab k := by
          intro k h1 h2
          rw [htdef, Function.update_noteq h2, Function.update_noteq h1]
        refine ⟨(s.ff + 1) :: rest, ⟨rfl, by omega, ?_, ?_, ?_, ?_, ?_, ?_⟩,
          ?_⟩
        · dsimp only
          rw [ht'ff1]
        · dsimp only
          rw [ht'ff1]
          show 1 ≤ (s.tab s.ff).n - 1
          omega
        · dsimp only
          rw [ht'ff1]
          show s.ff + 1 + ((s.tab s.ff).n - 1) ≤ FM
          omega
        · dsimp only
          rw [ht'ff1]
          show s.ff + 1 + ((s.tab s.ff).n - 1) ≤ (s.tab s.ff).next
          omega
        · dsimp only
          intro k hk1 hk2
          rw [ht'ff1] at hk2
          have hk2' : k < s.ff + 1 + ((s.tab s.ff).n - 1) := hk2
          rw [ht'k k (by omega) (by omega)]
          exact hint k (by omega) (by omega)
        · dsimp only
          rw [ht'ff1]
          show chainOK FM t' ((s.tab s.ff).next) rest
          apply chainOK_congr FM s.tab t' rest ((s.tab s.ff).next) hrest
          intro k hk
          obtain ⟨i, hi, h1, h2⟩ := hk
          have := hrestge i hi
          exact ht'k k (by omega) (by omega)
        · dsimp only
          intro k hkFM
          by_cases hkff : k = s.ff
          · subst hkff
            constructor
            · intro habs
              rw [ht'ff] at habs
              exact absurd (habs : (1 : Nat) = 0) one_ne_zero
            · rintro ⟨i, hi, h1, h2⟩
              rcases List.mem_cons.mp hi with rfl | hiR
              · omega
              · have := hrestge i hiR
                omega
          · by_cases hkff1 : k = s.ff + 1
            · subst hkff1
              constructor
              · intro _
                refine ⟨s.ff + 1, List.mem_cons_self _ _, le_refl _, ?_⟩
                rw [ht'ff1]
                show s.ff + 1 < s.ff + 1 + ((s.tab s.ff).n - 1)
                omega
              · intro _
                rw [ht'ff1]
            · rw [ht'k k hkff hkff1, hcov k hkFM]
              constructor
              · rintro ⟨i, hi, h1, h2⟩
                rcases List.mem_cons.mp hi with rfl | hiR
                · refine ⟨s.ff + 1, List.mem_cons_self _ _, by omega, ?_⟩
                  rw [ht'ff1]
                  show k < s.ff + 1 + ((s.tab s.ff).n - 1)
                  omega
                · have := hrestge i hiR
                  refine ⟨i, List.mem_cons_of_mem _ hiR, h1, ?_⟩
                  rw [ht'k i (by omega) (by omega)]
                  exact h2
              · rintro ⟨i, hi, h1, h2⟩
                rcases List.mem_cons.mp hi with rfl | hiR
                · rw [ht'ff1] at h2
                  have h2' : k < s.ff + 1 + ((s.tab s.ff).n - 1) := h2
                  exact ⟨s.ff, List.mem_cons_self _ _, by omega, by omega⟩
                · have := hrestge i hiR
                  rw [ht'k i (by omega) (by omega)] at h2
                  exact ⟨i, List.mem_cons_of_mem _ hiR, h1, h2⟩
      · -- singleton cluster: flow_first_free advances to the next cluster
        have halloc : flow_alloc FM s = some
            ({ tab := Function.update s.tab s.ff ⟨1, 0, 0⟩,
               ff := (s.tab s.ff).next }, s.ff) := by
          unfold flow_alloc
          rw [if_neg hff]
          dsimp only
          rw [if_neg hn1]
        have hstep : flowStep FM s .alloc =
            { tab := Function.update s.tab s.ff ⟨1, 0, 0⟩,
              ff := (s.tab s.ff).next } := by
          show (match flow_alloc FM s with
            | none => s
            | some (s', _) => s') = _
          rw [halloc]
        rw [hstep]
        have hne1 : (s.tab s.ff).n = 1 := by omega
        set t' := Function.update s.tab s.ff ⟨1, 0, 0⟩ with htdef
        have ht'ff : t' s.ff = ⟨1, 0, 0⟩ := Function.update_same _ _ _
        have ht'k : ∀ k, k ≠ s.ff → t' k = s.tab k := by
          intro k h1
          rw [htdef, Function.update_noteq h1]
        refine ⟨rest, ?_, ?_⟩
        · dsimp only
          apply chainOK_congr FM s.tab t' rest ((s.tab s.ff).next) hrest
          intro k hk
          obtain ⟨i, hi, h1, h2⟩ := hk
          have := hrestge i hi
          exact ht'k k (by omega)
        · dsimp only
          intro k hkFM
          by_cases hkff : k = s.ff
          · subst hkff
            constructor
            · intro habs
              rw [ht'ff] at habs
              exact absurd (habs : (1 : Nat) = 0) one_ne_zero
            · rintro ⟨i, hi, h1, h2⟩
              have := hrestge i hi
              omega
          · rw [ht'k k hkff, hcov k hkFM]
            constructor
            · rintro ⟨i, hi, h1, h2⟩
              rcases List.mem_cons.mp hi with rfl | hiR
              · omega
              · refine ⟨i, hiR, h1, ?_⟩
                have := hrestge i hiR
                rw [ht'k i (by omega)]
                exact h2
            · rintro ⟨i, hi, h1, h2⟩
              have := hrestge i hi
              rw [ht'k i (by omega)] at h2
              exact ⟨i, List.mem_cons_of_mem _ hi, h1, h2⟩

theorem chain_p_le (FM : Nat) (t : Nat → FlowSlot) :
    ∀ (L : List Nat) (p : Nat), chainOK FM t p L → p ≤ FM
  | [], _, hc => le_of_eq hc
  | a :: L, p, hc => by
    obtain ⟨hp, haFM, _⟩ := hc
    omega

theorem flowInv_cancel (FM : Nat) (s : FlowTable) (idx : Nat)
    (h : flowInv FM s) : flowInv FM (flowStep FM s (.cancel idx)) := by
  obtain ⟨L, hc, hcov⟩ := h
  by_cases hg : idx < s.ff ∧ (s.tab idx).ty ≠ 0
  · have hstep : flowStep FM s (.cancel idx) = flow_alloc_cancel s idx := by
      show (if idx < s.ff ∧ (s.tab idx).ty ≠ 0
        then flow_alloc_cancel s idx else s) = _
      rw [if_pos hg]
    rw [hstep]
    obtain ⟨hglt, hgty⟩ := hg
    have hffFM : s.ff ≤ FM := chain_p_le FM s.tab L s.ff hc
    have hidxFM : idx < FM := by omega
    have hnin : ¬ inFree s.tab L idx := fun hin =>
      hgty ((hcov idx hidxFM).mpr hin)
    unfold flow_alloc_cancel
    set t' := Function.update s.tab idx ⟨0, 1, s.ff⟩ with htdef
    have ht'idx : t' idx = ⟨0, 1, s.ff⟩ := Function.update_same _ _ _
    have ht'k : ∀ k, k ≠ idx → t' k = s.tab k := by
      intro k h1
      rw [htdef, Function.update_noteq h1]
    have hLne : ∀ i ∈ L, i ≠ idx := by
      intro i hi heq
      exact hnin (heq ▸ chain_head_inFree FM s.tab L s.ff hc i hi)
    have hchain' : chainOK FM t' s.ff L := by
      apply chainOK_congr FM s.tab t' L s.ff hc
      intro k hk
      refine ht'k k (fun heq => hnin (heq ▸ hk))
    refine ⟨idx :: L, ⟨rfl, hidxFM, ?_, ?_, ?_, ?_, ?_, ?_⟩, ?_⟩
    · dsimp only
      rw [ht'idx]
    · dsimp only
      rw [ht'idx]
    · dsimp only
      rw [ht'idx]
      show idx + 1 ≤ FM
      omega
    · dsimp only
      rw [ht'idx]
      show idx + 1 ≤ s.ff
      omega
    · dsimp only
      intro k hk1 hk2
      rw [ht'idx] at hk2
      have hk2' : k < idx + 1 := hk2
      omega
    · dsimp only
      rw [ht'idx]
      exact hchain'
    · dsimp only
      intro k hkFM
      by_cases hkidx : k = idx
      · subst hkidx
        constructor
        · intro _
          refine ⟨k, List.mem_cons_self _ _, le_refl _, ?_⟩
          rw [ht'idx]
          show k < k + 1
          omega
        · intro _
          rw [ht'idx]
      · rw [ht'k k hkidx, hcov k hkFM]
        constructor
        · rintro ⟨i, hi, h1, h2⟩
          refine ⟨i, List.mem_cons_of_mem _ hi, h1, ?_⟩
          rw [ht'k i (hLne i hi)]
          exact h2
        · rintro ⟨i, hi, h1, h2⟩
          rcases List.mem_cons.mp hi with rfl | hiL
          · rw [ht'idx] at h2
            have h2' : k < i + 1 := h2
            omega
          · rw [ht'k i (hLne i hiL)] at h2
            exact ⟨i, hiL, h1, h2⟩
  · have hstep : flowStep FM s (.cancel idx) = s := by
      show (if idx < s.ff ∧ (s.tab idx).ty ≠ 0
        then flow_alloc_cancel s idx else s) = s
      rw [if_neg hg]
    rw [hstep]
    exact ⟨L, hc, hcov⟩

theorem flowInv_defer (FM : Nat) (closes : Nat → Bool) (s : FlowTable)
    (h : flowInv FM s) : flowInv FM (flowStep FM s (.defer closes)) := by
  obtain ⟨L, hc, hcov⟩ := h
  have hpre0 : ScanPre FM s 0 none .first [] := by
    refine ⟨Nat.zero_le FM, ?_, List.chain'_nil, List.Pairwise.nil, ?_,
      Or.inl ⟨rfl, rfl⟩, ?_, ?_⟩
    · intro i hi
      exact absurd hi (List.not_mem_nil i)
    · intro h0 hh0
      exact absurd hh0 (by simp)
    · intro h hh
      exact Option.noConfusion hh
    · intro k hk
      omega
  have htail0 : TailOK FM s.tab 0 := by
    apply tailOK_of_inv FM s L hc hcov FM 0 (by omega)
    intro i hi hmid
    omega
  have := scan_ok FM closes FM 0 s none .first [] (by omega) htail0 hpre0
  exact this

theorem flowInv_foldl (FM : Nat) :
    ∀ (ops : List FlowOp) (s : FlowTable), flowInv FM s →
      flowInv FM (ops.foldl (flowStep FM) s)
  | [], _, h => h
  | op :: ops, s, h => by
    rw [List.foldl_cons]
    apply flowInv_foldl FM ops
    cases op with
    | alloc => exact flowInv_alloc FM s h
    | cancel idx => exact flowInv_cancel FM s idx h
    | defer closes => exact flowInv_defer FM closes s h

/-- C2: for every sequence of `flow_alloc()` / `flow_alloc_cancel()` /
`flow_defer_handler()` operations starting from `flow_init()`, the free
list headed at `flow_first_free` is a linked list of free clusters in
strictly increasing index order terminating at `FLOW_MAX`; every cluster
head has `free.n ≥ 1` and `idx + free.n ≤ FLOW_MAX` (and the free slots
are exactly the ones covered by the clusters), and the sum of
free-cluster lengths plus the number of occupied slots equals
`FLOW_MAX`. -/
theorem flow_free_list_invariant (FM : Nat) (ops : List FlowOp) :
    ∃ L, chainOK FM (flowRun FM ops).tab (flowRun FM ops).ff L ∧
      List.Chain' (· < ·) L ∧
      (∀ k, k < FM → (((flowRun FM ops).tab k).ty = 0 ↔
        inFree (flowRun FM ops).tab L k)) ∧
      sumN (flowRun FM ops).tab L + occCount FM (flowRun FM ops).tab
        = FM := by
  have h := flowInv_foldl FM ops (flow_init FM) (flowInv_init FM)
  unfold flowRun
  obtain ⟨L, hcL, hcovL⟩ := h
  exact ⟨L, hcL, chain_sorted FM _ L _ hcL, hcovL,
    inv_count FM _ L hcL hcovL⟩

end Passt
